import Mathlib

/-!
Verification development for the diff engine, change-set extractor and
definition-graph collector of the reviewed repository.

The diff engine in the source wraps the external jsdiff library
(createTwoFilesPatch / parsePatch), whose source is not part of the
repository; those two operations are modelled from the specification
(section 4.1 and the unified-diff format of section 6).  Everything else
is translated directly from the TypeScript source
(src/git/diffAnalyzer.ts and the definitionTracker module).

Strings are treated as their character sequences (ASCII in all concrete
inputs); machine numbers are Nat, except the brace-nesting counter which
the source lets go negative and is therefore Int.
-/

namespace BacklogReview

/-- Character-list take packaged as a string; models JavaScript
String.prototype.slice(0, n) for the ASCII strings involved. -/
def strTake (s : String) (n : Nat) : String :=
  ⟨s.data.take n⟩

/-- Decimal digit characters of a natural number, accumulator form.
The first argument is recursion fuel, always called with fuel > n. -/
def natCharsGo : Nat → Nat → List Char → List Char
  | 0, _, acc => acc
  | f + 1, n, acc =>
    let d := Char.ofNat (48 + n % 10)
    if n < 10 then d :: acc else natCharsGo f (n / 10) (d :: acc)

/-- Decimal digit characters of a natural number. -/
def natChars (n : Nat) : List Char :=
  natCharsGo (n + 1) n []

/-- Decimal rendering of a natural number as a string. -/
def natStr (n : Nat) : String :=
  ⟨natChars n⟩

/-- Is this character an ASCII decimal digit? -/
def isDigitCh (c : Char) : Bool :=
  48 ≤ c.toNat && c.toNat ≤ 57

/-- Fold a digit-character list into the natural number it denotes. -/
def parseNatChars (cs : List Char) : Nat :=
  cs.foldl (fun a c => a * 10 + (c.toNat - 48)) 0

/-- Split a character sequence at newline characters; the result always
has one more element than the number of newlines. -/
def splitNL : List Char → List (List Char)
  | [] => [[]]
  | c :: t =>
    match splitNL t with
    | [] => [[c]]
    | h :: hs => if c = '\n' then [] :: h :: hs else (c :: h) :: hs

/-- The line list of a text: segments between newlines, with a single
trailing empty segment (from a terminating newline, or from the empty
text) removed.  Models splitting a blob on line boundaries. -/
def splitLines (s : String) : List String :=
  let p := splitNL s.data
  (if p.getLast? = some [] then p.dropLast else p).map (fun cs => (⟨cs⟩ : String))

/-- Does the string start with the given character? -/
def headIs (s : String) (c : Char) : Bool :=
  match s.data with
  | [] => false
  | d :: _ => d = c

/-! ## Diff engine, modelled from the spec

Modelled from the spec: the source's generateUnifiedDiff and parseDiff
delegate the diff computation and the patch parsing to the external
jsdiff library (createTwoFilesPatch, parsePatch), which is not part of
the repository.  The definitions below follow section 4.1 of the spec: a
minimal line-level edit script in longest-common-subsequence style,
contiguous changed regions expanded by five lines of context on each
side, overlapping windows merged, and the textual format of section 6.
-/

/-- One entry of a line-level edit script. -/
inductive Op where
  | keep : String → Op
  | del : String → Op
  | ins : String → Op
deriving DecidableEq

/-- Is the edit-script entry an unchanged line? -/
def Op.isKeep : Op → Bool
  | .keep _ => true
  | _ => false

/-- The old-file lines described by an edit script (kept and deleted). -/
def replayOld : List Op → List String
  | [] => []
  | .keep s :: t => s :: replayOld t
  | .del s :: t => s :: replayOld t
  | .ins _ :: t => replayOld t

/-- The new-file lines described by an edit script (kept and inserted). -/
def replayNew : List Op → List String
  | [] => []
  | .keep s :: t => s :: replayNew t
  | .del _ :: t => replayNew t
  | .ins s :: t => s :: replayNew t

/-- Number of non-kept entries: the size of the edit script. -/
def opCost (l : List Op) : Nat :=
  l.countP (fun o => !o.isKeep)

/-- Minimal (LCS-style) line edit script between two line lists.  The
fuel bounds the recursion depth; each call consumes at least one line
from the combined input, so fuel equal to the combined length explores
the full search space.  On fuel exhaustion the delete-all/insert-all
script is returned, which still replays both sides correctly. -/
def diffOps : Nat → List String → List String → List Op
  | 0, as, bs => as.map .del ++ bs.map .ins
  | _ + 1, [], bs => bs.map .ins
  | _ + 1, a :: as, [] => (a :: as).map .del
  | f + 1, a :: as, b :: bs =>
    if a = b then
      .keep a :: diffOps f as bs
    else
      let d1 := .del a :: diffOps f as (b :: bs)
      let d2 := .ins b :: diffOps f (a :: as) bs
      if opCost d1 ≤ opCost d2 then d1 else d2

/-- Split an edit script into (change-run, following keep-run) pairs;
called after the leading keep-run has been removed.  Fuel bounds the
recursion; on exhaustion the remainder is emitted as one change-run,
preserving the concatenation of the pieces. -/
def pairRuns : Nat → List Op → List (List Op × List Op)
  | 0, [] => []
  | 0, l => [(l, [])]
  | _ + 1, [] => []
  | f + 1, l =>
    let chg := l.takeWhile (fun o => !o.isKeep)
    let r1 := l.dropWhile (fun o => !o.isKeep)
    let kp := r1.takeWhile Op.isKeep
    let r2 := r1.dropWhile Op.isKeep
    (chg, kp) :: pairRuns f r2

/-- Concatenate the pieces of a run decomposition back together. -/
def flattenPairs (ps : List (List Op × List Op)) : List Op :=
  ps.flatMap (fun p => p.1 ++ p.2)

/-- Grow a hunk core across keep-runs of at most twice the context width
(context is five lines, so ten): such gaps are swallowed whole and the
next change-run joins the same hunk, merging overlapping context
windows.  Returns the core (ending at its last change-run's trailing
keeps), the keep-run that terminated the growth, and the unconsumed
pairs. -/
def extendSeg (chg keepA : List Op) :
    List (List Op × List Op) → List Op × List Op × List (List Op × List Op)
  | [] => (chg, keepA, [])
  | (c2, k2) :: rt =>
    if keepA.length ≤ 10 then extendSeg (chg ++ keepA ++ c2) k2 rt
    else (chg, keepA, (c2, k2) :: rt)

/-- A rendered hunk before textual formatting: 1-based start positions
in the old and new file, and the ops it covers. -/
structure HunkR where
  oldStart : Nat
  newStart : Nat
  ops : List Op
deriving DecidableEq

/-- Assemble hunks from the (change-run, keep-run) pairs.  keepB is the
keep-run preceding the next change; o and n are the 1-based old/new file
positions of keepB's first line.  Each hunk takes at most five lines of
leading context from keepB and at most five lines of trailing context
from the keep-run that ended its growth. -/
def hunksFrom : Nat → List (List Op × List Op) → List Op → Nat → Nat → List HunkR
  | 0, _, _, _, _ => []
  | _ + 1, [], _, _, _ => []
  | f + 1, (chg, keepA) :: rest, keepB, o, n =>
    let ex := extendSeg chg keepA rest
    let len := keepB.length
    let c := min 5 len
    { oldStart := o + (len - c), newStart := n + (len - c),
      ops := keepB.drop (len - c) ++ ex.1 ++ ex.2.1.take 5 : HunkR }
      :: hunksFrom f ex.2.2 ex.2.1 (o + len + (replayOld ex.1).length)
          (n + len + (replayNew ex.1).length)

/-- Group an edit script into hunks: contiguous changed regions with
five lines of context on each side, overlapping windows merged. -/
def buildHunks (ops : List Op) : List HunkR :=
  let lead := ops.takeWhile Op.isKeep
  let rest := ops.dropWhile Op.isKeep
  let pairs := pairRuns (rest.length + 1) rest
  hunksFrom (pairs.length + 1) pairs lead 1 1

/-- Textual form of one edit-script entry inside a hunk body: a marker
character followed by the line's content. -/
def opLine : Op → String
  | .keep s => " " ++ s
  | .del s => "-" ++ s
  | .ins s => "+" ++ s

/-- The characters of a hunk header line for the given start lines and
counts. -/
def hunkHeaderChars (a b c d : Nat) : List Char :=
  "@@ -".data ++ natChars a ++ [','] ++ natChars b ++ [' ', '+'] ++ natChars c
    ++ [','] ++ natChars d ++ " @@".data

/-- The characters of the old-side file header line. -/
def oldHeaderChars (filename oldRef : String) : List Char :=
  "--- a/".data ++ filename.data ++ '\t' :: oldRef.data

/-- The characters of the new-side file header line. -/
def newHeaderChars (filename newRef : String) : List Char :=
  "+++ b/".data ++ filename.data ++ '\t' :: newRef.data

/-- The header and body lines of one rendered hunk. -/
def renderHunk (h : HunkR) : List String :=
  (⟨hunkHeaderChars h.oldStart (replayOld h.ops).length h.newStart
      (replayNew h.ops).length⟩ : String)
    :: h.ops.map opLine

/-- All lines of the rendered unified diff: the two file-header lines
followed by every hunk's header and body. -/
def renderLines (oldC newC filename oldRef newRef : String) : List String :=
  (⟨oldHeaderChars filename oldRef⟩ : String)
    :: (⟨newHeaderChars filename newRef⟩ : String)
    :: (buildHunks (diffOps ((splitLines oldC).length + (splitLines newC).length)
          (splitLines oldC) (splitLines newC))).flatMap renderHunk

/-- Source generateUnifiedDiff (src/git/diffAnalyzer.ts): renders the
unified diff of two file contents.  The jsdiff createTwoFilesPatch call
is modelled from the spec as renderLines; each line is terminated by a
newline. -/
def generateUnifiedDiff (oldContent newContent filename : String)
    (oldRef : String := "base") (newRef : String := "branch") : String :=
  String.join ((renderLines oldContent newContent filename oldRef newRef).map
    (fun l => l ++ "\n"))

/-! ## Parsing the unified-diff text, modelled from the spec -/

/-- Source Hunk interface (src/git/diffAnalyzer.ts): 1-based start lines
and the raw marker-prefixed body lines. -/
structure Hunk where
  oldStart : Nat
  newStart : Nat
  lines : List String
deriving DecidableEq

/-- Source FileDiff interface (src/git/diffAnalyzer.ts). -/
structure FileDiff where
  oldPath : String
  newPath : String
  hunks : List Hunk
  isNew : Bool
  isDeleted : Bool
  unifiedDiff : String
deriving DecidableEq

/-- A parsed file section before conversion to FileDiff: the file names
read from the header lines (absent when no header was seen). -/
structure PFile where
  oldName : Option String
  newName : Option String
  hunks : List Hunk
deriving DecidableEq

/-- Match a hunk header against the grammar of section 6,
at-at minus a comma b space plus c comma d at-at; trailing text after
the closing marker is ignored.  Returns (a, b, c, d) on success. -/
def parseHunkHeader (l : List Char) : Option (Nat × Nat × Nat × Nat) :=
  if ("@@ -".data).isPrefixOf l then
    let r0 := l.drop 4
    let d1 := r0.takeWhile isDigitCh
    let r1 := r0.dropWhile isDigitCh
    if d1 = [] then none else
    match r1 with
    | ',' :: r2 =>
      let d2 := r2.takeWhile isDigitCh
      let r3 := r2.dropWhile isDigitCh
      if d2 = [] then none else
      if (" +".data).isPrefixOf r3 then
        let r4 := r3.drop 2
        let d3 := r4.takeWhile isDigitCh
        let r5 := r4.dropWhile isDigitCh
        if d3 = [] then none else
        match r5 with
        | ',' :: r6 =>
          let d4 := r6.takeWhile isDigitCh
          let r7 := r6.dropWhile isDigitCh
          if d4 = [] then none else
          if (" @@".data).isPrefixOf r7 then
            some (parseNatChars d1, parseNatChars d2, parseNatChars d3, parseNatChars d4)
          else none
        | _ => none
      else none
    | _ => none
  else none

/-- File name on a header line: the text before the first tab. -/
def headerName (l : List Char) : String :=
  ⟨l.takeWhile (fun c => c ≠ '\t')⟩

/-- Parser state: completed file sections, the section being built, the
hunk being filled (with its remaining old/new line counts), and the
fatal-error flag (malformed hunk header). -/
structure PState where
  files : List PFile
  curFile : Option PFile
  curHunk : Option (Hunk × Nat × Nat)
  err : Option String
deriving DecidableEq

/-- Append a finished hunk to the section being built. -/
def closeHunk (f : Option PFile) (h : Hunk) : PFile :=
  match f with
  | some pf => { pf with hunks := pf.hunks ++ [h] }
  | none => { oldName := none, newName := none, hunks := [h] }

/-- Handle one line outside a hunk body: a minus-minus-minus header
starts a new file section, a plus-plus-plus header names its new side, a
hunk header opens a hunk (the only fatal failure is a header that does
not match the grammar), and any other line is skipped. -/
def stepTop (st : PState) (l : List Char) : PState :=
  if ("--- ".data).isPrefixOf l then
    { st with
      files := st.files ++ (match st.curFile with | some f => [f] | none => []),
      curFile := some { oldName := some (headerName (l.drop 4)), newName := none,
                        hunks := [] } }
  else if ("+++ ".data).isPrefixOf l then
    match st.curFile with
    | some f => { st with curFile := some { f with newName := some (headerName (l.drop 4)) } }
    | none =>
      { st with curFile := some (⟨none, some (headerName (l.drop 4)), []⟩ : PFile) }
  else if ("@@".data).isPrefixOf l then
    match parseHunkHeader l with
    | none => { st with err := some "malformed hunk header" }
    | some (a, b, c, d) =>
      if b = 0 ∧ d = 0 then
        { st with curFile := some (closeHunk st.curFile ⟨a, c, []⟩) }
      else
        { st with curHunk := some (⟨a, c, []⟩, b, d) }
  else st

/-- Consume one hunk-body line against the remaining old/new counts: a
leading plus is an added line (new count falls), a leading minus a
removed line (old count falls), and any other leading marker is treated
as context (both counts fall). -/
def bodyConsume (h : Hunk) (ro rn : Nat) (l : List Char) : Hunk × Nat × Nat :=
  match l with
  | '+' :: _ => (({ h with lines := h.lines ++ [(⟨l⟩ : String)] } : Hunk), ro, rn - 1)
  | '-' :: _ => (({ h with lines := h.lines ++ [(⟨l⟩ : String)] } : Hunk), ro - 1, rn)
  | _ => (({ h with lines := h.lines ++ [(⟨l⟩ : String)] } : Hunk), ro - 1, rn - 1)

/-- Handle one line of input.  Inside a hunk body the line is consumed
via bodyConsume; the hunk closes as soon as both counts are exhausted. -/
def stepLine (st : PState) (l : List Char) : PState :=
  if st.err.isSome then st
  else
    match st.curHunk with
    | none => stepTop st l
    | some (h, ro, rn) =>
      let next := bodyConsume h ro rn l
      if next.2.1 = 0 ∧ next.2.2 = 0 then
        { st with curFile := some (closeHunk st.curFile next.1), curHunk := none }
      else
        { st with curHunk := some next }

/-- Flush the parser state at end of input: an unfinished hunk and the
section being built are emitted as they stand. -/
def flushState (st : PState) : List PFile :=
  let st1 :=
    match st.curHunk with
    | some (h, _, _) => { st with curFile := some (closeHunk st.curFile h), curHunk := none }
    | none => st
  st1.files ++ (match st1.curFile with | some f => [f] | none => [])

/-- Modelled from the spec: jsdiff parsePatch.  Splits the text into
lines and runs the line parser; fails only when a hunk header cannot be
matched to the grammar. -/
def parsePatchModel (text : String) : Except String (List PFile) :=
  let fin := (splitNL text.data).foldl stepLine ⟨[], none, none, none⟩
  match fin.err with
  | some e => .error e
  | none => .ok (flushState fin)

/-- Source parseDiff (src/git/diffAnalyzer.ts): parse a unified diff
into FileDiff records; absent file names become empty paths, and the
isNew/isDeleted flags compare the parsed names with /dev/null. -/
def parseDiff (diffText : String) : Except String (List FileDiff) :=
  match parsePatchModel diffText with
  | .error e => .error e
  | .ok files =>
    .ok (files.map (fun f =>
      { oldPath := f.oldName.getD "",
        newPath := f.newName.getD "",
        hunks := f.hunks,
        isNew := f.oldName = some "/dev/null",
        isDeleted := f.newName = some "/dev/null",
        unifiedDiff := diffText }))

/-- The old-file lines carried by a parsed hunk: every line whose marker
is not a plus, with the marker dropped (removed and context lines). -/
def hunkOldLines (h : Hunk) : List String :=
  h.lines.filterMap (fun s =>
    match s.data with
    | '+' :: _ => none
    | _ :: rest => some (⟨rest⟩ : String)
    | [] => some "")

/-- The new-file lines carried by a parsed hunk: every line whose marker
is not a minus, with the marker dropped (added and context lines). -/
def hunkNewLines (h : Hunk) : List String :=
  h.lines.filterMap (fun s =>
    match s.data with
    | '-' :: _ => none
    | _ :: rest => some (⟨rest⟩ : String)
    | [] => some "")

/-- Source getChangedLineNumbers (src/git/diffAnalyzer.ts): new-file
line numbers of the added lines, one cursor per hunk starting at that
hunk's newStart. -/
def getChangedLineNumbers (fileDiff : FileDiff) : List Nat :=
  fileDiff.hunks.foldl (fun acc h =>
    (h.lines.foldl (fun p l =>
      if headIs l '+' then (p.1 ++ [p.2], p.2 + 1)
      else if headIs l '-' then p
      else (p.1, p.2 + 1)) (acc, h.newStart)).1) []

/-- The change-set walk exactly as the spec words it, per hunk: a cursor
starts at newStart; an added line emits the cursor then advances it, a
context line advances it silently, a removed line does neither. -/
def hunkWalk : List String → Nat → List Nat
  | [], _ => []
  | l :: t, cur =>
    if headIs l '+' then cur :: hunkWalk t (cur + 1)
    else if headIs l '-' then hunkWalk t cur
    else hunkWalk t (cur + 1)

/-- The spec's changedLines: hunks processed independently, results
concatenated in hunk order. -/
def specChangedLines (fd : FileDiff) : List Nat :=
  fd.hunks.flatMap (fun h => hunkWalk h.lines h.newStart)

/-- A line advances the new-file cursor iff it is added or context. -/
def advancesCursor (l : String) : Bool :=
  headIs l '+' || !headIs l '-'

/-- Final cursor value of a hunk's walk: newStart plus the number of
lines that advance the cursor (added and context lines). -/
def hunkEndCursor (h : Hunk) : Nat :=
  h.newStart + h.lines.countP advancesCursor

/-! ## Definition graph collector (definitionTracker module)

Translated from the source.  The editor services it consumes
(openTextDocument, executeDefinitionProvider, asRelativePath) are the
external collaborators of spec section 6 and are passed in as an
environment; a document is its list of line texts.  The recursion on
currentDepth up to maxDepth is encoded by the fuel maxDepth minus
currentDepth, so the depth gate currentDepth >= maxDepth is exactly
fuel = 0 and a recursive call at currentDepth + 1 runs at fuel - 1. -/

/-- Is this character a JavaScript word character ([A-Za-z0-9_])? -/
def isWordChar (c : Char) : Bool :=
  (('a' ≤ c && c ≤ 'z') || ('A' ≤ c && c ≤ 'Z') || ('0' ≤ c && c ≤ '9') || c = '_')

/-- Horizontal whitespace, the only whitespace that can occur inside a
document line (lines never contain newlines). -/
def isSpaceChar (c : Char) : Bool :=
  c = ' ' || c = '\t'

/-- Can this character start an identifier ([A-Za-z_])? -/
def isIdentStart (c : Char) : Bool :=
  (('a' ≤ c && c ≤ 'z') || ('A' ≤ c && c ≤ 'Z') || c = '_')

/-- Is the token an identifier the source regex accepts: an upper-case
initial of any length, or a lower-case or underscore initial of total
length at least three? -/
def validTok : List Char → Bool
  | [] => false
  | u :: t => if 'A' ≤ u && u ≤ 'Z' then true else t.length + 1 ≥ 3

/-- Strip a trailing line comment: everything from the first
slash-slash onward is removed. -/
def stripLineComment : List Char → List Char
  | '/' :: '/' :: _ => []
  | c :: t => c :: stripLineComment t
  | [] => []

/-- Suffix after the first star-slash, if any. -/
def findBlockClose : List Char → Option (List Char)
  | '*' :: '/' :: t => some t
  | _ :: t => findBlockClose t
  | [] => none

/-- Remove every inline slash-star ... star-slash span (non-greedy,
global); an unclosed opener is left in place, as the source regex does
not match it.  Fuel bounds the recursion and the input length plus one
always suffices. -/
def stripBlockComments : Nat → List Char → List Char
  | 0, cs => cs
  | f + 1, cs =>
    match cs with
    | '/' :: '*' :: t =>
      (match findBlockClose t with
       | some rest => stripBlockComments f rest
       | none => '/' :: '*' :: t)
    | c :: t => c :: stripBlockComments f t
    | [] => []

/-- Scan for identifier tokens immediately followed (after optional
horizontal whitespace) by a dot or an opening parenthesis, replicating
the source regex left to right: a match may only start on a word
boundary, the token is taken maximally, and scanning resumes after the
dot or parenthesis of a match.  Returns (token, column of the token
start).  Fuel bounds the recursion; input length plus one suffices. -/
def scanIdents : Nat → List Char → Nat → Bool → List (String × Nat)
  | 0, _, _, _ => []
  | _ + 1, [], _, _ => []
  | f + 1, c :: t, i, prevWord =>
    if !prevWord && isIdentStart c then
      let tok := (c :: t).takeWhile isWordChar
      let r1 := (c :: t).dropWhile isWordChar
      if validTok tok then
        let ws := r1.takeWhile isSpaceChar
        let r2 := r1.dropWhile isSpaceChar
        match r2 with
        | b :: t2 =>
          if b = '.' || b = '(' then
            ((⟨tok⟩ : String), i) :: scanIdents f t2 (i + tok.length + ws.length + 1) false
          else scanIdents f t (i + 1) (isWordChar c)
        | [] => scanIdents f t (i + 1) (isWordChar c)
      else scanIdents f t (i + 1) (isWordChar c)
    else scanIdents f t (i + 1) (isWordChar c)

/-- Source extractIdentifiers: strip comments, then find identifiers
followed by a dot or parenthesis with their column positions. -/
def extractIdentifiers (lineText : String) : List (String × Nat) :=
  let stripped :=
    stripBlockComments (lineText.data.length + 1) (stripLineComment lineText.data)
  scanIdents (stripped.length + 1) stripped 0 false

/-- Strip a keyword followed by at least one whitespace character from
the front; none when the keyword or its trailing whitespace is absent. -/
def stripKwSp (kw : List Char) (cs : List Char) : Option (List Char) :=
  if kw.isPrefixOf cs then
    match cs.drop kw.length with
    | c :: t => if isSpaceChar c then some (t.dropWhile isSpaceChar) else none
    | [] => none
  else none

/-- Strip the keyword-plus-whitespace if present, else leave the input
unchanged (an optional group of the source regex). -/
def stripOptKw (kw : List Char) (cs : List Char) : List Char :=
  (stripKwSp kw cs).getD cs

/-- After a keyword: one word, optional whitespace, then an opening
parenthesis (the \w+\s*\( tail of the source regex). -/
def wordThenParen (cs : List Char) : Bool :=
  let w := cs.takeWhile isWordChar
  let r := (cs.dropWhile isWordChar).dropWhile isSpaceChar
  !w.isEmpty &&
    (match r with
     | '(' :: _ => true
     | _ => false)

/-- After const/let/var and a name: equals sign, optional async, then an
opening parenthesis (the =\s*(async\s+)?\( tail of the source regex). -/
def eqThenParen (cs : List Char) : Bool :=
  let w := cs.takeWhile isWordChar
  let r := (cs.dropWhile isWordChar).dropWhile isSpaceChar
  !w.isEmpty &&
    (match r with
     | '=' :: t =>
       let t1 := t.dropWhile isSpaceChar
       let t2 := stripOptKw ("async".data) t1
       (match t2 with
        | '(' :: _ => true
        | _ => false)
     | _ => false)

/-- Source declaration-line test: the regex matching function or class
declarations, modified members, or assigned callables, each anchored at
the line start after leading whitespace. -/
def isDeclLine (s : String) : Bool :=
  let cs := s.data.dropWhile isSpaceChar
  let alt1 := ("function".data).isPrefixOf (stripOptKw ("async".data) (stripOptKw ("export".data) cs))
  let alt2 := ("class".data).isPrefixOf (stripOptKw ("export".data) cs)
  let alt3 := [("public".data), ("private".data), ("protected".data), ("static".data),
               ("async".data)].any (fun kw =>
    match stripKwSp kw cs with
    | some r => wordThenParen r
    | none => false)
  let alt4 := [("const".data), ("let".data), ("var".data)].any (fun kw =>
    match stripKwSp kw cs with
    | some r => eqThenParen r
    | none => false)
  alt1 || alt2 || alt3 || alt4

/-- Line text at an index, empty for an out-of-range index (ranges used
by the source are always in range for nonempty documents). -/
def lineAtD (doc : List String) (i : Nat) : String :=
  doc.getD i ""

/-- Upward scan of the source: from the resolved line, look at most 20
lines up for the nearest declaration-shaped line; the resolved line
itself is the fallback block start. -/
def findBlockStart (doc : List String) (idx : Nat) : Nat :=
  match (List.range (min idx 20 + 1)).find? (fun j => isDeclLine (lineAtD doc (idx - j))) with
  | some j => idx - j
  | none => idx

/-- Open-brace and close-brace characters (ASCII 123 and 125). -/
def lbrace : Char := Char.ofNat 123

/-- See lbrace. -/
def rbrace : Char := Char.ofNat 125

/-- Update brace depth and the seen-an-open-brace flag across one line.
The depth is an Int because the source lets it go negative. -/
def scanBraces (cs : List Char) (d : Int) (f : Bool) : Int × Bool :=
  cs.foldl (fun p c =>
    if c = lbrace then (p.1 + 1, true)
    else if c = rbrace then (p.1 - 1, p.2)
    else p) (d, f)

/-- Downward scan of the source: walk lines from the block start,
accumulating characters (line length plus one per line) and tracking
brace depth; the block ends where depth first returns to zero after an
opening brace, or where the accumulated count exceeds the budget, or at
the end of the document (falling back to the block start). -/
def findEndGo (maxChars : Nat) (fb : Nat) :
    List String → Nat → Int → Bool → Nat → Nat
  | [], _, _, _, _ => fb
  | lineText :: rest, i, depth, found, charCount =>
    let cc := charCount + lineText.length + 1
    let db := scanBraces lineText.data depth found
    if db.2 && db.1 = 0 then i
    else if cc > maxChars then i
    else findEndGo maxChars fb rest (i + 1) db.1 db.2 cc

/-- Text of the document between line start and the start of line end2,
as the editor's getText returns it: every line followed by its newline,
except that an end falling past the last line is clamped to the end of
the document (no trailing newline then). -/
def docGetText (doc : List String) (start end2 : Nat) : String :=
  let seg := (doc.drop start).take (end2 - start)
  if end2 < doc.length then String.join (seg.map (fun l => l ++ "\n"))
  else String.intercalate "\n" seg

/-- The block text before truncation, from the computed bounds. -/
def rawBlockContent (doc : List String) (idx maxChars : Nat) : String :=
  let bStart := findBlockStart doc idx
  docGetText doc bStart (findEndGo maxChars bStart (doc.drop bStart) bStart 0 false 0 + 1)

/-- The result shape of the source extractDefinitionBlock. -/
structure BlockInfo where
  startLine : Nat
  endLine : Nat
  content : String
deriving DecidableEq

/-- Source extractDefinitionBlock: upward scan for the block start,
downward brace scan for the block end, and the text truncated to the
character budget.  startLine and endLine are the 1-based bounds. -/
def extractDefinitionBlock (doc : List String) (startLineIndex maxChars : Nat) : BlockInfo :=
  let bStart := findBlockStart doc startLineIndex
  let bEnd := findEndGo maxChars bStart (doc.drop bStart) bStart 0 false 0
  { startLine := bStart + 1, endLine := bEnd + 1,
    content := strTake (docGetText doc bStart (bEnd + 1)) maxChars }

/-- A resolved definition location: target file and 0-based start line
(a returned LocationLink is normalized to this shape by the source). -/
structure Loc where
  uri : String
  line : Nat
deriving DecidableEq

/-- Source DefinitionContext interface. -/
structure DefinitionContext where
  symbolName : String
  originFile : String
  definitionFile : String
  definitionContent : String
  startLine : Nat
  endLine : Nat
deriving DecidableEq

/-- The external collaborators of spec section 6: the document provider
(none models an open failure), the symbol-resolution capability (none
models a thrown or undefined result), and the workspace-relative path
mapping. -/
structure Env where
  openDoc : String → Option (List String)
  resolveDef : String → Nat → Nat → Option (List Loc)
  relPath : String → String

/-- Traversal state: the shared visited-set (file keys, probe keys and
definition keys all live in the one set, as in the source), the
accumulated results, and two ghost traces used only by the theorems: the
sequence of document-open requests and the sequence of files whose lines
were actually scanned (those that passed the visited-file check). -/
structure GState where
  visited : List String
  results : List DefinitionContext
  opens : List String
  scans : List String

/-- The visited-set key for one identifier probe (file:line:column). -/
def probeKey (uri : String) (lineNo col : Nat) : String :=
  uri ++ ":" ++ natStr lineNo ++ ":" ++ natStr col

/-- The visited-set key for one resolved definition location
(file:resolvedStartLine, before block extraction). -/
def defKeyOf (l : Loc) : String :=
  l.uri ++ ":" ++ natStr l.line

/-- Body of the source's per-location loop: skip self-references and
already-recorded definition keys, open the defining document (a failure
or an out-of-range resolved line is swallowed by the try/catch), extract
the block, record the DefinitionContext, and recurse into the defining
file seeded with the block's start line and midpoint. -/
def processLocation (env : Env)
    (rec : String → List Nat → GState → GState)
    (origin name : String) (budget : Nat) (st : GState) (loc : Loc) : GState :=
  if loc.uri = origin then st
  else if defKeyOf loc ∈ st.visited then st
  else
    let st1 : GState := { st with visited := defKeyOf loc :: st.visited }
    let st2 : GState := { st1 with opens := st1.opens ++ [loc.uri] }
    match env.openDoc loc.uri with
    | none => st2
    | some doc =>
      if doc.length ≤ loc.line then st2
      else
        let e := extractDefinitionBlock doc loc.line budget
        let st3 : GState := { st2 with results := st2.results ++
          [{ symbolName := name, originFile := env.relPath origin,
             definitionFile := env.relPath loc.uri,
             definitionContent := e.content,
             startLine := e.startLine, endLine := e.endLine }] }
        rec loc.uri [e.startLine, (e.startLine + e.endLine) / 2] st3

/-- Body of the source's per-identifier loop: skip visited probes, ask
the resolver (failures and empty answers are skipped), and process every
returned location. -/
def processIdent (env : Env)
    (rec : String → List Nat → GState → GState)
    (origin : String) (lineNo budget : Nat) (st : GState)
    (ident : String × Nat) : GState :=
  if probeKey origin lineNo ident.2 ∈ st.visited then st
  else
    let st1 : GState := { st with visited := probeKey origin lineNo ident.2 :: st.visited }
    match env.resolveDef origin (lineNo - 1) ident.2 with
    | none => st1
    | some [] => st1
    | some locs => locs.foldl (processLocation env rec origin ident.1 budget) st1

/-- Body of the source's per-target-line loop: read the (clamped) line,
extract its identifiers, and probe each one. -/
def processLine (env : Env)
    (rec : String → List Nat → GState → GState)
    (origin : String) (doc : List String) (budget : Nat)
    (st : GState) (lineNo : Nat) : GState :=
  let lineText := lineAtD doc (min (lineNo - 1) (doc.length - 1))
  (extractIdentifiers lineText).foldl (processIdent env rec origin lineNo budget) st

/-- Source gatherRecursive, with fuel = maxDepth - currentDepth: the
depth gate is fuel = 0; then the document is opened (before the
visited-file check, mirroring the source order), an already-visited file
is skipped, and otherwise every target line is processed. -/
def gatherRecFull (env : Env) : Nat → String → List Nat → Nat → GState → GState
  | 0, _, _, _, st => st
  | fuel + 1, fileUri, targetLines, budget, st =>
    let st1 : GState := { st with opens := st.opens ++ [fileUri] }
    match env.openDoc fileUri with
    | none => st1
    | some doc =>
      if fileUri ∈ st1.visited then st1
      else
        let st2 : GState :=
          { st1 with visited := fileUri :: st1.visited, scans := st1.scans ++ [fileUri] }
        targetLines.foldl
          (processLine env (fun u ls s => gatherRecFull env fuel u ls budget s)
            fileUri doc budget) st2

/-- The empty traversal state. -/
def initGState : GState :=
  { visited := [], results := [], opens := [], scans := [] }

/-- Source gatherDefinitionsForChangedLines: run the recursive collector
from depth 0 (fuel maxDepth) on fresh visited-sets and return the
accumulated DefinitionContext list. -/
def gatherDefinitionsForChangedLines (env : Env) (fileUri : String)
    (changedLines : List Nat) (maxDepth maxCharsPerFile : Nat) : List DefinitionContext :=
  (gatherRecFull env maxDepth fileUri changedLines maxCharsPerFile initGState).results

/-! ## Concrete environments for the cycle, dedup and truncation scenarios -/

/-- File X: one changed line calling foo. -/
def docX : List String := ["foo()"]

/-- File Y: a function block whose body calls bar. -/
def docY : List String := ["function fy() \x7b", "  bar()", "\x7d"]

/-- A mutual reference cycle: the changed line of X resolves into Y, and
Y's block body resolves back into X. -/
def envCycle : Env :=
  { openDoc := fun u => if u = "X" then some docX else if u = "Y" then some docY else none,
    resolveDef := fun u line col =>
      if u = "X" && line = 0 && col = 0 then some [⟨"Y", 0⟩]
      else if u = "Y" && line = 1 && col = 2 then some [⟨"X", 0⟩]
      else none,
    relPath := fun u => u }

/-- File X with two changed lines, each calling a symbol of Y. -/
def docX2 : List String := ["foo()", "baz()"]

/-- File Y with one declaration block spanning two body lines. -/
def docY2 : List String := ["function fy() \x7b", "  aa", "  bb", "\x7d"]

/-- Two distinct changed lines of X resolving to two distinct lines
inside the same block of Y. -/
def envDup : Env :=
  { openDoc := fun u => if u = "X" then some docX2 else if u = "Y" then some docY2 else none,
    resolveDef := fun u line col =>
      if u = "X" && line = 0 && col = 0 then some [⟨"Y", 1⟩]
      else if u = "X" && line = 1 && col = 0 then some [⟨"Y", 2⟩]
      else none,
    relPath := fun u => u }

/-- Two distinct changed lines of X resolving to the same location of Y. -/
def envDedup : Env :=
  { openDoc := fun u => if u = "X" then some docX2 else if u = "Y" then some docY2 else none,
    resolveDef := fun u line col =>
      if u = "X" && line = 0 && col = 0 then some [⟨"Y", 1⟩]
      else if u = "X" && line = 1 && col = 0 then some [⟨"Y", 1⟩]
      else none,
    relPath := fun u => u }

/-- A FileDiff whose hunks are out of order: the second hunk starts
below the lines already emitted by the first. -/
def fdBad : FileDiff :=
  ⟨"a", "b", [⟨1, 5, ["+x"]⟩, ⟨1, 1, ["+y"]⟩], false, false, ""⟩

/-- A FileDiff whose hunks are ordered: each hunk starts at or after the
previous hunk's final cursor. -/
def fdChain : FileDiff :=
  ⟨"a", "b", [⟨1, 1, ["+x", " c"]⟩, ⟨9, 9, ["+y"]⟩], false, false, ""⟩

/-! ## Change-set extractor: the source fold equals the spec walk -/

lemma foldl_hunkLines (lines : List String) (acc : List Nat) (cur : Nat) :
    (lines.foldl (fun p l =>
      if headIs l '+' then (p.1 ++ [p.2], p.2 + 1)
      else if headIs l '-' then p
      else (p.1, p.2 + 1)) (acc, cur)).1 = acc ++ hunkWalk lines cur := by
  induction lines generalizing acc cur with
  | nil => simp [hunkWalk]
  | cons l t ih =>
    simp only [List.foldl_cons, hunkWalk]
    by_cases h1 : headIs l '+'
    · simp only [h1, if_true, ih, List.append_assoc, List.singleton_append]
    · by_cases h2 : headIs l '-' <;> simp [h1, h2, ih]

lemma foldl_hunks_eq (hunks : List Hunk) (acc : List Nat) :
    hunks.foldl (fun acc h =>
      (h.lines.foldl (fun p l =>
        if headIs l '+' then (p.1 ++ [p.2], p.2 + 1)
        else if headIs l '-' then p
        else (p.1, p.2 + 1)) (acc, h.newStart)).1) acc
      = acc ++ hunks.flatMap (fun h => hunkWalk h.lines h.newStart) := by
  induction hunks generalizing acc with
  | nil => simp
  | cons h t ih =>
    simp only [List.foldl_cons, List.flatMap_cons, ← List.append_assoc]
    rw [foldl_hunkLines]
    exact ih _

/-- The source fold and the spec walk agree on every FileDiff. -/
lemma get_eq_spec (fd : FileDiff) : getChangedLineNumbers fd = specChangedLines fd := by
  unfold getChangedLineNumbers specChangedLines
  simpa using foldl_hunks_eq fd.hunks []

lemma hunkWalk_bounds (lines : List String) (cur : Nat) :
    (∀ v ∈ hunkWalk lines cur, cur ≤ v ∧ v < cur + lines.countP advancesCursor) ∧
      List.Pairwise (· < ·) (hunkWalk lines cur) := by
  induction lines generalizing cur with
  | nil => simp [hunkWalk]
  | cons l t ih =>
    by_cases h1 : headIs l '+'
    · have hadv : advancesCursor l = true := by simp [advancesCursor, h1]
      refine ⟨?_, ?_⟩
      · intro v hv
        simp only [hunkWalk, h1, if_true, List.mem_cons] at hv
        rcases hv with rfl | hv
        · simp [List.countP_cons, hadv]
        · have := (ih (cur + 1)).1 v hv
          simp [List.countP_cons, hadv]
          omega
      · simp only [hunkWalk, h1, if_true]
        exact List.pairwise_cons.mpr
          ⟨fun v hv => by have := (ih (cur + 1)).1 v hv; omega, (ih (cur + 1)).2⟩
    · by_cases h2 : headIs l '-'
      · have hadv : advancesCursor l = false := by simp [advancesCursor, h1, h2]
        refine ⟨?_, ?_⟩
        · intro v hv
          simp only [hunkWalk, h1, h2, if_false, if_true] at hv
          have := (ih cur).1 v hv
          simp [List.countP_cons, hadv]
          omega
        · simpa [hunkWalk, h1, h2] using (ih cur).2
      · have hadv : advancesCursor l = true := by simp [advancesCursor, h1, h2]
        refine ⟨?_, ?_⟩
        · intro v hv
          simp only [hunkWalk, h1, h2, if_false] at hv
          have := (ih (cur + 1)).1 v hv
          simp [List.countP_cons, hadv]
          omega
        · simpa [hunkWalk, h1, h2] using (ih (cur + 1)).2

lemma chain_walk (hunks : List Hunk)
    (hc : List.Chain' (fun h₁ h₂ => hunkEndCursor h₁ ≤ h₂.newStart) hunks) :
    List.Pairwise (· < ·) (hunks.flatMap (fun h => hunkWalk h.lines h.newStart)) ∧
      ∀ v ∈ hunks.flatMap (fun h => hunkWalk h.lines h.newStart),
        ∀ h₀, hunks.head? = some h₀ → h₀.newStart ≤ v := by
  induction hunks with
  | nil => simp
  | cons h t ih =>
    obtain ⟨iht1, iht2⟩ := ih hc.tail
    have hbd := hunkWalk_bounds h.lines h.newStart
    have hrest : ∀ v ∈ t.flatMap (fun h => hunkWalk h.lines h.newStart),
        hunkEndCursor h ≤ v := by
      intro v hv
      cases t with
      | nil => simp at hv
      | cons h2 t2 =>
        have hlink : hunkEndCursor h ≤ h2.newStart := (List.chain'_cons.mp hc).1
        have := iht2 v hv h2 rfl
        omega
    have hcross : ∀ v1 ∈ hunkWalk h.lines h.newStart,
        ∀ v2 ∈ t.flatMap (fun h => hunkWalk h.lines h.newStart), v1 < v2 := by
      intro v1 hv1 v2 hv2
      have hv1lt : v1 < hunkEndCursor h := by
        have := (hbd.1 v1 hv1).2
        simp only [hunkEndCursor]
        omega
      have := hrest v2 hv2
      omega
    refine ⟨?_, ?_⟩
    · simp only [List.flatMap_cons]
      exact List.pairwise_append.mpr ⟨hbd.2, iht1, hcross⟩
    · intro v hv h₀ hh₀
      simp only [List.head?_cons, Option.some_inj] at hh₀
      subst hh₀
      simp only [List.flatMap_cons, List.mem_append] at hv
      rcases hv with hv | hv
      · exact (hbd.1 v hv).1
      · have h1 := hrest v hv
        simp only [hunkEndCursor] at h1
        omega

end BacklogReview

namespace BacklogReview

/-! ## Claim theorems: change-set extractor and depth gate -/

/-- C5: getChangedLineNumbers processes each hunk independently with a
cursor initialized to that hunk's newStart, emits then advances for
added lines, advances silently for context lines, ignores removed
lines, concatenates in hunk order (this is exactly the spec walk
specChangedLines), and a FileDiff with zero hunks yields the empty
list. -/
theorem c5_changed_lines_walk :
    (∀ fd : FileDiff, getChangedLineNumbers fd = specChangedLines fd) ∧
      ∀ op np isN isD ud, getChangedLineNumbers ⟨op, np, [], isN, isD, ud⟩ = [] :=
  ⟨get_eq_spec, fun _ _ _ _ _ => rfl⟩

/-- C9 counterexample: on a FileDiff whose second hunk starts below the
lines emitted by the first, the sequence returned by
getChangedLineNumbers is not strictly increasing. -/
theorem c9_counterexample :
    ¬ List.Pairwise (· < ·) (getChangedLineNumbers fdBad) := by decide

/-- C9 amended: the emitted sequence is strictly increasing within each
hunk, and for every FileDiff whose consecutive hunks are ordered (each
hunk's final cursor value at most the next hunk's newStart, as holds for
diffs parsed from rendered output) the whole sequence is strictly
increasing. -/
theorem c9_sorted_of_ordered (fd : FileDiff)
    (h : List.Chain' (fun h₁ h₂ => hunkEndCursor h₁ ≤ h₂.newStart) fd.hunks) :
    List.Pairwise (· < ·) (getChangedLineNumbers fd) := by
  rw [get_eq_spec]
  exact (chain_walk fd.hunks h).1

/-- Witness for c9_sorted_of_ordered at a concrete ordered FileDiff. -/
theorem c9_sorted_of_ordered_witness :
    List.Chain' (fun h₁ h₂ => hunkEndCursor h₁ ≤ h₂.newStart) fdChain.hunks ∧
      List.Pairwise (· < ·) (getChangedLineNumbers fdChain) := by
  have hch : List.Chain' (fun h₁ h₂ => hunkEndCursor h₁ ≤ h₂.newStart) fdChain.hunks := by
    show List.Chain' (fun h₁ h₂ => hunkEndCursor h₁ ≤ h₂.newStart)
      [(⟨1, 1, ["+x", " c"]⟩ : Hunk), ⟨9, 9, ["+y"]⟩]
    exact List.chain'_pair.mpr (by decide)
  exact ⟨hch, c9_sorted_of_ordered fdChain hch⟩

/-- C6: a recursive collector call at the depth gate (fuel 0, that is
currentDepth at least maxDepth) returns its state unchanged, with no
opens, probes or results; consequently maxDepth = 0 makes the collector
return the empty sequence for every environment, origin and seed set. -/
theorem c6_depth_gate :
    (∀ (env : Env) (u : String) (ls : List Nat) (b : Nat) (st : GState),
        gatherRecFull env 0 u ls b st = st) ∧
      ∀ (env : Env) (u : String) (ls : List Nat) (b : Nat),
        gatherDefinitionsForChangedLines env u ls 0 b = [] :=
  ⟨fun _ _ _ _ _ => rfl, fun _ _ _ _ => rfl⟩

/-! ## Claim theorems: concrete collector scenarios -/

/-- C2 counterexample: in the mutual reference cycle X to Y to X with
maxDepth 5, the traversal returns two DefinitionContexts, not exactly
one. -/
theorem c2_counterexample :
    ¬ (gatherDefinitionsForChangedLines envCycle "X" [1] 5 1000).length = 1 := by
  decide

/-- C2 amended: in the mutual reference cycle X to Y to X with maxDepth
5, the traversal terminates and yields exactly two DefinitionContexts in
discovery order, one for Y's block and one for the block in X that Y's
body refers back to; the visited-file set stops the recursion at the
re-entry into X. -/
theorem c2_cycle_two_results :
    (gatherDefinitionsForChangedLines envCycle "X" [1] 5 1000).map
      (fun c => (c.definitionFile, c.startLine, c.endLine))
      = [("Y", 1, 3), ("X", 1, 1)] := by
  decide

/-- C3 counterexample: two changed lines of X resolving to two distinct
lines inside the same block of Y yield two DefinitionContexts with the
same definitionFile and the same extracted startLine, because the
dedup key uses the resolver-returned line, not the extraction result. -/
theorem c3_counterexample :
    ¬ List.Pairwise
      (fun a b => ¬(a.definitionFile = b.definitionFile ∧ a.startLine = b.startLine))
      (gatherDefinitionsForChangedLines envDup "X" [1, 2] 5 1000) := by
  decide

/-- C3 amended: the dedup key is (definitionFile, resolver-returned
start line), taken before block extraction: two distinct changed lines
that resolve to the same location produce exactly one
DefinitionContext, while distinct resolved lines inside one block may
still duplicate the extracted (definitionFile, startLine). -/
theorem c3_dedup_same_location :
    (gatherDefinitionsForChangedLines envDedup "X" [1, 2] 5 1000).length = 1 := by
  decide

/-- C4 counterexample: in the cycle scenario the document provider is
asked to open file Y twice within one traversal (once for block
extraction and once on recursive entry), so files are not opened at
most once. -/
theorem c4_counterexample :
    ¬ ((gatherRecFull envCycle 5 "X" [1] 1000 initGState).opens.count "Y" ≤ 1) := by
  decide

end BacklogReview

namespace BacklogReview

/-! ## Preservation of state invariants through the collector -/

lemma foldl_pres {σ : Type} {α : Type} (P : σ → Prop) (f : σ → α → σ)
    (hf : ∀ s a, P s → P (f s a)) :
    ∀ (l : List α) (s : σ), P s → P (l.foldl f s) := by
  intro l
  induction l with
  | nil => intro s h; exact h
  | cons a t ih => intro s h; exact ih _ (hf s a h)

lemma findEndGo_ge (maxChars fb : Nat) :
    ∀ (ls : List String) (i : Nat) (d : Int) (f : Bool) (cc : Nat),
      fb ≤ i → fb ≤ findEndGo maxChars fb ls i d f cc := by
  intro ls
  induction ls with
  | nil => intro i d f cc _; simp [findEndGo]
  | cons l t ih =>
    intro i d f cc hi
    simp only [findEndGo]
    split
    · exact hi
    · split
      · exact hi
      · exact ih (i + 1) _ _ _ (by omega)

lemma stringLength_data (s : String) : s.length = s.data.length := by
  cases s
  rfl

lemma strTake_length_le (s : String) (n : Nat) : (strTake s n).length ≤ n := by
  simp only [strTake, String.length]
  exact (List.length_take_le n s.data)

lemma extract_bounds (doc : List String) (idx budget : Nat) :
    1 ≤ (extractDefinitionBlock doc idx budget).startLine ∧
      (extractDefinitionBlock doc idx budget).startLine
        ≤ (extractDefinitionBlock doc idx budget).endLine ∧
      (extractDefinitionBlock doc idx budget).content.length ≤ budget := by
  have h := findEndGo_ge budget (findBlockStart doc idx) (doc.drop (findBlockStart doc idx))
    (findBlockStart doc idx) 0 false 0 (le_refl _)
  simp only [extractDefinitionBlock]
  exact ⟨by omega, by omega, strTake_length_le _ _⟩

lemma processLocation_pres (env : Env) (budget : Nat) (P : GState → Prop)
    (rec : String → List Nat → GState → GState)
    (hvis : ∀ (st : GState) (k : String), P st → P { st with visited := k :: st.visited })
    (hop : ∀ (st : GState) (u : String), P st → P { st with opens := st.opens ++ [u] })
    (hres : ∀ (st : GState) (name origin : String) (loc : Loc) (doc : List String), P st →
      P { st with results := st.results ++
        [{ symbolName := name, originFile := env.relPath origin,
           definitionFile := env.relPath loc.uri,
           definitionContent := (extractDefinitionBlock doc loc.line budget).content,
           startLine := (extractDefinitionBlock doc loc.line budget).startLine,
           endLine := (extractDefinitionBlock doc loc.line budget).endLine }] })
    (hrec : ∀ (u : String) (ls : List Nat) (s : GState), P s → P (rec u ls s)) :
    ∀ (origin name : String) (st : GState) (loc : Loc),
      P st → P (processLocation env rec origin name budget st loc) := by
  intro origin name st loc hst
  unfold processLocation
  by_cases h1 : loc.uri = origin
  · simpa [h1] using hst
  · by_cases h2 : defKeyOf loc ∈ st.visited
    · simp only [h1, h2, if_false, if_true]
      exact hst
    · simp only [h1, h2, if_false]
      cases hdoc : env.openDoc loc.uri with
      | none =>
        simp only [hdoc]
        exact hop _ _ (hvis _ _ hst)
      | some doc =>
        simp only [hdoc]
        by_cases h3 : doc.length ≤ loc.line
        · simp only [h3, if_true]
          exact hop _ _ (hvis _ _ hst)
        · simp only [h3, if_false]
          exact hrec _ _ _ (hres _ _ _ _ _ (hop _ _ (hvis _ _ hst)))

lemma processIdent_pres (env : Env) (budget : Nat) (P : GState → Prop)
    (rec : String → List Nat → GState → GState)
    (hvis : ∀ (st : GState) (k : String), P st → P { st with visited := k :: st.visited })
    (hop : ∀ (st : GState) (u : String), P st → P { st with opens := st.opens ++ [u] })
    (hres : ∀ (st : GState) (name origin : String) (loc : Loc) (doc : List String), P st →
      P { st with results := st.results ++
        [{ symbolName := name, originFile := env.relPath origin,
           definitionFile := env.relPath loc.uri,
           definitionContent := (extractDefinitionBlock doc loc.line budget).content,
           startLine := (extractDefinitionBlock doc loc.line budget).startLine,
           endLine := (extractDefinitionBlock doc loc.line budget).endLine }] })
    (hrec : ∀ (u : String) (ls : List Nat) (s : GState), P s → P (rec u ls s)) :
    ∀ (origin : String) (lineNo : Nat) (st : GState) (ident : String × Nat),
      P st → P (processIdent env rec origin lineNo budget st ident) := by
  intro origin lineNo st ident hst
  unfold processIdent
  by_cases h1 : probeKey origin lineNo ident.2 ∈ st.visited
  · simpa [h1] using hst
  · simp only [h1, if_false]
    cases hr : env.resolveDef origin (lineNo - 1) ident.2 with
    | none =>
      simp only [hr]
      exact hvis _ _ hst
    | some locs =>
      cases locs with
      | nil =>
        simp only [hr]
        exact hvis _ _ hst
      | cons l0 lt =>
        simp only [hr]
        exact foldl_pres P _
          (fun s a hs => processLocation_pres env budget P rec hvis hop hres hrec _ _ s a hs)
          _ _ (hvis _ _ hst)

lemma processLine_pres (env : Env) (budget : Nat) (P : GState → Prop)
    (rec : String → List Nat → GState → GState)
    (hvis : ∀ (st : GState) (k : String), P st → P { st with visited := k :: st.visited })
    (hop : ∀ (st : GState) (u : String), P st → P { st with opens := st.opens ++ [u] })
    (hres : ∀ (st : GState) (name origin : String) (loc : Loc) (doc : List String), P st →
      P { st with results := st.results ++
        [{ symbolName := name, originFile := env.relPath origin,
           definitionFile := env.relPath loc.uri,
           definitionContent := (extractDefinitionBlock doc loc.line budget).content,
           startLine := (extractDefinitionBlock doc loc.line budget).startLine,
           endLine := (extractDefinitionBlock doc loc.line budget).endLine }] })
    (hrec : ∀ (u : String) (ls : List Nat) (s : GState), P s → P (rec u ls s)) :
    ∀ (origin : String) (doc : List String) (st : GState) (lineNo : Nat),
      P st → P (processLine env rec origin doc budget st lineNo) := by
  intro origin doc st lineNo hst
  unfold processLine
  exact foldl_pres P _
    (fun s a hs => processIdent_pres env budget P rec hvis hop hres hrec _ _ s a hs)
    _ _ hst

lemma gatherRecFull_pres (env : Env) (budget : Nat) (P : GState → Prop)
    (hvis : ∀ (st : GState) (k : String), P st → P { st with visited := k :: st.visited })
    (hop : ∀ (st : GState) (u : String), P st → P { st with opens := st.opens ++ [u] })
    (hres : ∀ (st : GState) (name origin : String) (loc : Loc) (doc : List String), P st →
      P { st with results := st.results ++
        [{ symbolName := name, originFile := env.relPath origin,
           definitionFile := env.relPath loc.uri,
           definitionContent := (extractDefinitionBlock doc loc.line budget).content,
           startLine := (extractDefinitionBlock doc loc.line budget).startLine,
           endLine := (extractDefinitionBlock doc loc.line budget).endLine }] })
    (hscan : ∀ (st : GState) (u : String), u ∉ st.visited → P st →
      P { st with visited := u :: st.visited, scans := st.scans ++ [u] }) :
    ∀ (fuel : Nat) (u : String) (ls : List Nat) (st : GState),
      P st → P (gatherRecFull env fuel u ls budget st) := by
  intro fuel
  induction fuel with
  | zero => intro u ls st hst; exact hst
  | succ f ih =>
    intro u ls st hst
    unfold gatherRecFull
    cases hdoc : env.openDoc u with
    | none =>
      simp only [hdoc]
      exact hop _ _ hst
    | some doc =>
      simp only [hdoc]
      by_cases h1 : u ∈ ({ st with opens := st.opens ++ [u] } : GState).visited
      · simp only [h1, if_true]
        exact hop _ _ hst
      · simp only [h1, if_false]
        refine foldl_pres P _
          (fun s a hs => processLine_pres env budget P _ hvis hop hres
            (fun u2 ls2 s2 hs2 => ih u2 ls2 s2 hs2) _ _ s a hs) _ _ ?_
        exact hscan _ _ h1 (hop _ _ hst)

end BacklogReview

namespace BacklogReview

/-- C4 amended: within one traversal each file is scanned (its lines
probed for identifiers) at most once: the visited-file set makes the
ghost scan trace duplicate-free for every environment, depth, origin and
seed set.  Files may nevertheless be opened more than once, since the
source opens the document before the visited check and opens defining
files again during block extraction (see the C4 counterexample). -/
theorem c4_scan_once (env : Env) (fuel : Nat) (u : String) (ls : List Nat) (b : Nat) :
    (gatherRecFull env fuel u ls b initGState).scans.Nodup := by
  have main := gatherRecFull_pres env b
    (fun st => st.scans.Nodup ∧ ∀ f ∈ st.scans, f ∈ st.visited)
    (fun st k h => ⟨h.1, fun f hf => List.mem_cons_of_mem _ (h.2 f hf)⟩)
    (fun st u h => h)
    (fun st name origin loc doc h => h)
    (fun st u hu h => by
      refine ⟨?_, ?_⟩
      · rw [List.nodup_append]
        refine ⟨h.1, List.nodup_singleton u, ?_⟩
        intro a ha hb
        simp only [List.mem_singleton] at hb
        subst hb
        exact hu (h.2 a ha)
      · intro f hf
        simp only [List.mem_append, List.mem_singleton] at hf
        rcases hf with hf | rfl
        · exact List.mem_cons_of_mem _ (h.2 f hf)
        · exact List.mem_cons_self _ _)
    fuel u ls initGState ⟨List.nodup_nil, by simp [initGState]⟩
  exact main.1

/-- C10: every DefinitionContext the collector ever appends satisfies
1 ≤ startLine ≤ endLine and a definitionContent no longer than the
charBudgetPerBlock parameter, for every environment, origin file, seed
set, depth and budget. -/
theorem c10_ctx_bounds (env : Env) (u : String) (ls : List Nat) (depth budget : Nat)
    (c : DefinitionContext)
    (hc : c ∈ gatherDefinitionsForChangedLines env u ls depth budget) :
    1 ≤ c.startLine ∧ c.startLine ≤ c.endLine ∧
      c.definitionContent.length ≤ budget := by
  have main := gatherRecFull_pres env budget
    (fun st => ∀ c ∈ st.results,
      1 ≤ c.startLine ∧ c.startLine ≤ c.endLine ∧ c.definitionContent.length ≤ budget)
    (fun st k h => h)
    (fun st u h => h)
    (fun st name origin loc doc h => by
      intro c hcm
      simp only [List.mem_append, List.mem_singleton] at hcm
      rcases hcm with hcm | rfl
      · exact h c hcm
      · exact extract_bounds doc loc.line budget)
    (fun st u hu h => h)
    depth u ls initGState (by intro c hcm; simp [initGState] at hcm)
  exact main c hc

/-- Witness for c10_ctx_bounds at the concrete cycle scenario. -/
theorem c10_ctx_bounds_witness :
    (⟨"foo", "X", "Y", "function fy() \x7b\n  bar()\n\x7d", 1, 3⟩ : DefinitionContext)
        ∈ gatherDefinitionsForChangedLines envCycle "X" [1] 5 1000 ∧
      1 ≤ (1 : Nat) ∧ (1 : Nat) ≤ 3 ∧
        ("function fy() \x7b\n  bar()\n\x7d" : String).length ≤ 1000 := by
  refine ⟨by decide, ?_⟩
  exact c10_ctx_bounds envCycle "X" [1] 5 1000
    (⟨"foo", "X", "Y", "function fy() \x7b\n  bar()\n\x7d", 1, 3⟩ : DefinitionContext)
    (by decide)

/-- C7: when the pre-truncation block text exceeds the character
budget, the recorded definitionContent has length exactly the budget,
and the per-location step still recurses into the defining file seeded
with the pre-truncation startLine and the midpoint of startLine and
endLine. -/
theorem c7_truncation_seeding (env : Env)
    (rec : String → List Nat → GState → GState)
    (origin name : String) (budget : Nat) (st : GState) (loc : Loc) (doc : List String)
    (hopen : env.openDoc loc.uri = some doc)
    (hrange : loc.line < doc.length)
    (hself : loc.uri ≠ origin)
    (hfresh : defKeyOf loc ∉ st.visited)
    (hbig : budget < (rawBlockContent doc loc.line budget).length) :
    (extractDefinitionBlock doc loc.line budget).content.length = budget ∧
      processLocation env rec origin name budget st loc =
        rec loc.uri
          [(extractDefinitionBlock doc loc.line budget).startLine,
           ((extractDefinitionBlock doc loc.line budget).startLine
             + (extractDefinitionBlock doc loc.line budget).endLine) / 2]
          { st with
            visited := defKeyOf loc :: st.visited,
            opens := st.opens ++ [loc.uri],
            results := st.results ++
              [{ symbolName := name, originFile := env.relPath origin,
                 definitionFile := env.relPath loc.uri,
                 definitionContent := (extractDefinitionBlock doc loc.line budget).content,
                 startLine := (extractDefinitionBlock doc loc.line budget).startLine,
                 endLine := (extractDefinitionBlock doc loc.line budget).endLine }] } := by
  constructor
  · have hraw : (extractDefinitionBlock doc loc.line budget).content
        = strTake (rawBlockContent doc loc.line budget) budget := rfl
    have h2 : (strTake (rawBlockContent doc loc.line budget) budget).length
        = min budget (rawBlockContent doc loc.line budget).data.length := by
      rw [stringLength_data]
      exact List.length_take budget (rawBlockContent doc loc.line budget).data
    rw [hraw, h2]
    rw [stringLength_data] at hbig
    omega
  · unfold processLocation
    rw [if_neg hself, if_neg hfresh, hopen]
    dsimp only
    rw [if_neg (by omega : ¬ doc.length ≤ loc.line)]

end BacklogReview

namespace BacklogReview

/-- Witness for c7_truncation_seeding: file Y's block under a budget of
10 characters (the raw block text has 16). -/
theorem c7_truncation_seeding_witness :
    (extractDefinitionBlock docY 0 10).content.length = 10 ∧
      processLocation envCycle (fun _ _ s => s) "X" "foo" 10 initGState ⟨"Y", 0⟩ =
        { initGState with
          visited := defKeyOf ⟨"Y", 0⟩ :: initGState.visited,
          opens := initGState.opens ++ ["Y"],
          results := initGState.results ++
            [{ symbolName := "foo", originFile := envCycle.relPath "X",
               definitionFile := envCycle.relPath "Y",
               definitionContent := (extractDefinitionBlock docY 0 10).content,
               startLine := (extractDefinitionBlock docY 0 10).startLine,
               endLine := (extractDefinitionBlock docY 0 10).endLine }] } :=
  c7_truncation_seeding envCycle (fun _ _ s => s) "X" "foo" 10 initGState ⟨"Y", 0⟩ docY
    (by decide) (by decide) (by decide) (by decide) (by decide)

end BacklogReview

namespace BacklogReview

/-! ## Parse failures come only from malformed hunk headers -/

lemma stepTop_err (st : PState) (l : List Char) (e : String)
    (h : (stepTop st l).err = some e) :
    st.err = some e ∨ (("@@".data).isPrefixOf l ∧ parseHunkHeader l = none) := by
  unfold stepTop at h
  by_cases h1 : ("--- ".data).isPrefixOf l
  · simp only [h1, if_true] at h
    exact Or.inl h
  · simp only [h1, if_false] at h
    by_cases h2 : ("+++ ".data).isPrefixOf l
    · simp only [h2, if_true] at h
      cases hcf : st.curFile with
      | some f => simp only [hcf] at h; exact Or.inl h
      | none => simp only [hcf] at h; exact Or.inl h
    · simp only [h2, if_false] at h
      by_cases h3 : ("@@".data).isPrefixOf l
      · simp only [h3, if_true] at h
        cases hph : parseHunkHeader l with
        | none => exact Or.inr ⟨h3, rfl⟩
        | some q =>
          simp only [hph] at h
          rcases q with ⟨a, b, c, d⟩
          by_cases h4 : b = 0 ∧ d = 0
          · simp only [h4, if_true] at h
            exact Or.inl h
          · simp only [h4, if_false] at h
            exact Or.inl h
      · simp only [h3, if_false] at h
        exact Or.inl h

lemma stepLine_err (st : PState) (l : List Char) (e : String)
    (h : (stepLine st l).err = some e) :
    st.err = some e ∨ (("@@".data).isPrefixOf l ∧ parseHunkHeader l = none) := by
  unfold stepLine at h
  cases he : st.err with
  | some e0 =>
    rw [he] at h
    simp only [Option.isSome_some, if_true] at h
    exact Or.inl (by rw [← he]; exact h)
  | none =>
    rw [he] at h
    simp only [Option.isSome_none, Bool.false_eq_true, if_false] at h
    cases hch : st.curHunk with
    | none =>
      simp only [hch] at h
      rcases stepTop_err st l e h with h1 | h1
      · exact Or.inl (by rw [← he]; exact h1)
      · exact Or.inr h1
    | some p =>
      simp only [hch] at h
      split at h <;> simp at h

lemma foldl_stepLine_err (lines : List (List Char)) (st : PState) (e : String)
    (h : (lines.foldl stepLine st).err = some e) :
    st.err = some e ∨ ∃ l ∈ lines, ("@@".data).isPrefixOf l ∧ parseHunkHeader l = none := by
  induction lines generalizing st with
  | nil => exact Or.inl h
  | cons a t ih =>
    simp only [List.foldl_cons] at h
    rcases ih (stepLine st a) h with h1 | h1
    · rcases stepLine_err st a e h1 with h2 | h2
      · exact Or.inl h2
      · exact Or.inr ⟨a, List.mem_cons_self a t, h2⟩
    · rcases h1 with ⟨l, hl, hp⟩
      exact Or.inr ⟨l, List.mem_cons_of_mem a hl, hp⟩

/-- C8: parseDiff fails only when some line of the input is a hunk
header (starts with two at signs) that cannot be matched to the header
grammar; and inside a hunk body every line whose leading marker is
neither plus nor minus is consumed as a context line (advancing both
remaining counts), never a failure. -/
theorem c8_malformed_header_only :
    (∀ (text e : String), parseDiff text = .error e →
        ∃ l ∈ splitNL text.data, ("@@".data).isPrefixOf l ∧ parseHunkHeader l = none) ∧
      ∀ (h : Hunk) (ro rn : Nat) (l : List Char),
        headIs (⟨l⟩ : String) '+' = false → headIs (⟨l⟩ : String) '-' = false →
        bodyConsume h ro rn l =
          ((⟨h.oldStart, h.newStart, h.lines ++ [(⟨l⟩ : String)]⟩ : Hunk),
            ro - 1, rn - 1) := by
  constructor
  · intro text e hpd
    have hm : parsePatchModel text = .error e := by
      unfold parseDiff at hpd
      cases hpm : parsePatchModel text with
      | error e2 =>
        rw [hpm] at hpd
        dsimp only at hpd
        cases hpd
        rfl
      | ok fs =>
        rw [hpm] at hpd
        dsimp only at hpd
        exact Except.noConfusion hpd
    have herr : ((splitNL text.data).foldl stepLine ⟨[], none, none, none⟩).err = some e := by
      unfold parsePatchModel at hm
      cases hf : ((splitNL text.data).foldl stepLine ⟨[], none, none, none⟩).err with
      | none =>
        dsimp only at hm
        rw [hf] at hm
        dsimp only at hm
        exact Except.noConfusion hm
      | some e2 =>
        dsimp only at hm
        rw [hf] at hm
        dsimp only at hm
        cases hm
        rfl
    rcases foldl_stepLine_err _ _ _ herr with h1 | h1
    · cases h1
    · exact h1
  · intro h ro rn l hplus hminus
    unfold bodyConsume
    split
    · simp [headIs] at hplus
    · simp [headIs] at hminus
    · rfl

end BacklogReview

namespace BacklogReview

/-- Witness for c8_malformed_header_only: a bad hunk header line and an
unknown-marker body line. -/
theorem c8_malformed_header_only_witness :
    (∃ l ∈ splitNL ("@@ x" : String).data,
        ("@@".data).isPrefixOf l ∧ parseHunkHeader l = none) ∧
      bodyConsume ⟨1, 1, []⟩ 2 2 ("zq".data) =
        ((⟨1, 1, [("zq" : String)]⟩ : Hunk), 1, 1) := by
  constructor
  · exact c8_malformed_header_only.1 ("@@ x") ("malformed hunk header") (by rfl)
  · have h2 := c8_malformed_header_only.2 ⟨1, 1, []⟩ 2 2 ("zq".data) (by decide) (by decide)
    simpa using h2

end BacklogReview

namespace BacklogReview

/-! ## Round-trip infrastructure: edit-script replay and run structure -/

/-- The line content carried by an edit-script entry. -/
def opContent : Op → String
  | .keep s => s
  | .del s => s
  | .ins s => s

lemma replayOld_append (x y : List Op) :
    replayOld (x ++ y) = replayOld x ++ replayOld y := by
  induction x with
  | nil => rfl
  | cons o t ih => cases o <;> simp [replayOld, ih]

lemma replayNew_append (x y : List Op) :
    replayNew (x ++ y) = replayNew x ++ replayNew y := by
  induction x with
  | nil => rfl
  | cons o t ih => cases o <;> simp [replayNew, ih]

lemma replayOld_map_del (as : List String) : replayOld (as.map .del) = as := by
  induction as with
  | nil => rfl
  | cons a t ih => simp [replayOld, ih]

lemma replayOld_map_ins (bs : List String) : replayOld (bs.map .ins) = [] := by
  induction bs with
  | nil => rfl
  | cons b t ih => simp [replayOld, ih]

lemma replayNew_map_ins (bs : List String) : replayNew (bs.map .ins) = bs := by
  induction bs with
  | nil => rfl
  | cons b t ih => simp [replayNew, ih]

lemma replayNew_map_del (as : List String) : replayNew (as.map .del) = [] := by
  induction as with
  | nil => rfl
  | cons a t ih => simp [replayNew, ih]

/-- Any fuel value gives a correct edit script: replaying its old side
yields the old lines and its new side the new lines. -/
lemma diffOps_replay (f : Nat) (as bs : List String) :
    replayOld (diffOps f as bs) = as ∧ replayNew (diffOps f as bs) = bs := by
  induction f generalizing as bs with
  | zero =>
    simp [diffOps, replayOld_append, replayNew_append, replayOld_map_del,
      replayOld_map_ins, replayNew_map_del, replayNew_map_ins]
  | succ f ih =>
    cases as with
    | nil => simp [diffOps, replayOld_map_ins, replayNew_map_ins]
    | cons a as2 =>
      cases bs with
      | nil =>
        simp [diffOps, replayOld, replayNew, replayOld_map_del, replayNew_map_del]
      | cons b bs2 =>
        by_cases hab : a = b
        · subst hab
          simp only [diffOps, if_true, replayOld, replayNew]
          exact ⟨by rw [(ih as2 bs2).1], by rw [(ih as2 bs2).2]⟩
        · simp only [diffOps, hab, if_false]
          split
          · simp only [replayOld, replayNew]
            exact ⟨by rw [(ih as2 (b :: bs2)).1], by rw [(ih as2 (b :: bs2)).2]⟩
          · simp only [replayOld, replayNew]
            exact ⟨by rw [(ih (a :: as2) bs2).1], by rw [(ih (a :: as2) bs2).2]⟩

/-- On a keep-only run both replays are just the contents. -/
lemma keepAll_replay (l : List Op) (h : ∀ o ∈ l, o.isKeep = true) :
    replayOld l = l.map opContent ∧ replayNew l = l.map opContent := by
  induction l with
  | nil => exact ⟨rfl, rfl⟩
  | cons o t ih =>
    have ho := h o (List.mem_cons_self o t)
    have ht := ih (fun x hx => h x (List.mem_cons_of_mem o hx))
    cases o with
    | keep s => simp [replayOld, replayNew, opContent, ht.1, ht.2]
    | del s => simp [Op.isKeep] at ho
    | ins s => simp [Op.isKeep] at ho

lemma flattenPairs_cons (p : List Op × List Op) (ps : List (List Op × List Op)) :
    flattenPairs (p :: ps) = (p.1 ++ p.2) ++ flattenPairs ps := by
  simp [flattenPairs]

lemma pairRuns_flatten (f : Nat) (l : List Op) :
    flattenPairs (pairRuns f l) = l := by
  induction f generalizing l with
  | zero =>
    cases l with
    | nil => rfl
    | cons x t => simp [pairRuns, flattenPairs]
  | succ f ih =>
    cases l with
    | nil => rfl
    | cons x t =>
      simp only [pairRuns, flattenPairs_cons]
      rw [ih]
      rw [List.append_assoc, List.takeWhile_append_dropWhile, List.takeWhile_append_dropWhile]

lemma pairRuns_keepPure (f : Nat) (l : List Op) :
    ∀ p ∈ pairRuns f l, ∀ o ∈ p.2, o.isKeep = true := by
  induction f generalizing l with
  | zero =>
    cases l with
    | nil => intro p hp; simp [pairRuns] at hp
    | cons x t =>
      intro p hp
      simp only [pairRuns, List.mem_singleton] at hp
      subst hp
      intro o ho
      simp at ho
  | succ f ih =>
    cases l with
    | nil => intro p hp; simp [pairRuns] at hp
    | cons x t =>
      intro p hp
      simp only [pairRuns, List.mem_cons] at hp
      rcases hp with rfl | hp
      · intro o ho
        exact List.mem_takeWhile_imp ho
      · exact ih _ p hp

/-- The three extendSeg outputs re-concatenate to the inputs. -/
lemma extendSeg_flatten (rest : List (List Op × List Op)) :
    ∀ (chg keepA : List Op),
      (extendSeg chg keepA rest).1 ++ (extendSeg chg keepA rest).2.1
          ++ flattenPairs (extendSeg chg keepA rest).2.2
        = chg ++ keepA ++ flattenPairs rest := by
  induction rest with
  | nil => intro chg keepA; simp [extendSeg, flattenPairs]
  | cons p rt ih =>
    intro chg keepA
    rcases p with ⟨c2, k2⟩
    simp only [extendSeg]
    by_cases hlen : keepA.length ≤ 10
    · simp only [hlen, if_true]
      rw [ih]
      simp [flattenPairs, List.append_assoc]
    · simp only [hlen, if_false]

/-- The keep-run returned by extendSeg is keep-only when the inputs
are. -/
lemma extendSeg_kl_pure (rest : List (List Op × List Op)) :
    ∀ (chg keepA : List Op),
      (∀ o ∈ keepA, o.isKeep = true) →
      (∀ p ∈ rest, ∀ o ∈ p.2, o.isKeep = true) →
      ∀ o ∈ (extendSeg chg keepA rest).2.1, o.isKeep = true := by
  induction rest with
  | nil => intro chg keepA hk _; simpa [extendSeg] using hk
  | cons p rt ih =>
    intro chg keepA hk hr
    rcases p with ⟨c2, k2⟩
    simp only [extendSeg]
    by_cases hlen : keepA.length ≤ 10
    · simp only [hlen, if_true]
      exact ih _ _ (hr (c2, k2) (List.mem_cons_self _ _))
        (fun q hq => hr q (List.mem_cons_of_mem _ hq))
    · simpa [hlen] using hk

/-- The pairs extendSeg leaves unconsumed come from the input pairs. -/
lemma extendSeg_rest_sub (rest : List (List Op × List Op)) :
    ∀ (chg keepA : List Op),
      ∀ p ∈ (extendSeg chg keepA rest).2.2, p ∈ rest := by
  induction rest with
  | nil => intro chg keepA p hp; simpa [extendSeg] using hp
  | cons q rt ih =>
    intro chg keepA p hp
    rcases q with ⟨c2, k2⟩
    simp only [extendSeg] at hp
    by_cases hlen : keepA.length ≤ 10
    · simp only [hlen, if_true] at hp
      exact List.mem_cons_of_mem _ (ih _ _ p hp)
    · simpa [hlen] using hp

end BacklogReview

namespace BacklogReview

/-! ## Positional correctness of the assembled hunks -/

lemma drop_append_le {α : Type} (X Y : List α) (k : Nat) (hk : k ≤ X.length) :
    (X ++ Y).drop k = X.drop k ++ Y := by
  rw [List.drop_append_eq_append_drop]
  have : k - X.length = 0 := by omega
  rw [this, List.drop_zero]

lemma take_append_le {α : Type} (X Y : List α) (k : Nat) (hk : k ≤ X.length) :
    (X ++ Y).take k = X.take k := by
  rw [List.take_append_eq_append_take]
  have : k - X.length = 0 := by omega
  rw [this, List.take_zero, List.append_nil]

lemma take_prefix_sum {α : Type} (X Y : List α) (m : Nat) :
    (X ++ Y).take (X.length + m) = X ++ Y.take m := by
  rw [List.take_append_eq_append_take]
  have h1 : X.take (X.length + m) = X := List.take_of_length_le (by omega)
  have h2 : X.length + m - X.length = m := by omega
  rw [h1, h2]

lemma take_min {α : Type} (l : List α) (k : Nat) :
    l.take (min k l.length) = l.take k := by
  by_cases h : k ≤ l.length
  · rw [Nat.min_eq_left h]
  · rw [Nat.min_eq_right (by omega)]
    rw [List.take_length]
    exact (List.take_of_length_le (by omega)).symm

/-- Purity descends to sublists taken by drop. -/
lemma keepAll_drop (l : List Op) (k : Nat) (h : ∀ x ∈ l, x.isKeep = true) :
    ∀ x ∈ l.drop k, x.isKeep = true :=
  fun x hx => h x (List.mem_of_mem_drop hx)

/-- Purity descends to sublists taken by take. -/
lemma keepAll_take (l : List Op) (k : Nat) (h : ∀ x ∈ l, x.isKeep = true) :
    ∀ x ∈ l.take k, x.isKeep = true :=
  fun x hx => h x (List.mem_of_mem_take hx)

/-- On a keep-only run, replayOld commutes with drop. -/
lemma replayOld_drop_pure (l : List Op) (k : Nat) (h : ∀ x ∈ l, x.isKeep = true) :
    replayOld (l.drop k) = (replayOld l).drop k := by
  rw [(keepAll_replay l h).1, (keepAll_replay (l.drop k) (keepAll_drop l k h)).1]
  exact List.map_drop opContent l k

/-- On a keep-only run, replayOld commutes with take. -/
lemma replayOld_take_pure (l : List Op) (k : Nat) (h : ∀ x ∈ l, x.isKeep = true) :
    replayOld (l.take k) = (replayOld l).take k := by
  rw [(keepAll_replay l h).1, (keepAll_replay (l.take k) (keepAll_take l k h)).1]
  exact List.map_take opContent l k

/-- On a keep-only run, replayNew commutes with drop. -/
lemma replayNew_drop_pure (l : List Op) (k : Nat) (h : ∀ x ∈ l, x.isKeep = true) :
    replayNew (l.drop k) = (replayNew l).drop k := by
  rw [(keepAll_replay l h).2, (keepAll_replay (l.drop k) (keepAll_drop l k h)).2]
  exact List.map_drop opContent l k

/-- On a keep-only run, replayNew commutes with take. -/
lemma replayNew_take_pure (l : List Op) (k : Nat) (h : ∀ x ∈ l, x.isKeep = true) :
    replayNew (l.take k) = (replayNew l).take k := by
  rw [(keepAll_replay l h).2, (keepAll_replay (l.take k) (keepAll_take l k h)).2]
  exact List.map_take opContent l k

/-- Slice extraction: a middle segment of matching length pulled out of
a decomposed list by drop and take. -/
lemma slice_extract {α : Type} (P Q R S : List α) (k : Nat) (hk : k ≤ P.length) :
    ((P ++ (Q ++ (R ++ S))).drop k).take
        ((P.drop k).length + (Q.length + (R.take 5).length))
      = P.drop k ++ (Q ++ R.take 5) := by
  rw [drop_append_le P _ k hk]
  rw [take_prefix_sum (P.drop k) (Q ++ (R ++ S)) (Q.length + (R.take 5).length)]
  rw [take_prefix_sum Q (R ++ S) ((R.take 5).length)]
  rw [take_append_le R S _ (by rw [List.length_take]; omega)]
  rw [List.length_take]
  rw [take_min R 5]

end BacklogReview

namespace BacklogReview

/-- Every hunk assembled by hunksFrom carries old-side lines that are
exactly the old file's slice at its oldStart, and new-side lines that
are exactly the new file's slice at its newStart. -/
lemma hunksFrom_pos (as bs : List String) (fuel : Nat) :
    ∀ (pairs : List (List Op × List Op)) (keepB : List Op) (o nn : Nat),
      1 ≤ o → 1 ≤ nn →
      (∀ x ∈ keepB, x.isKeep = true) →
      (∀ p ∈ pairs, ∀ x ∈ p.2, x.isKeep = true) →
      as.drop (o - 1) = replayOld (keepB ++ flattenPairs pairs) →
      bs.drop (nn - 1) = replayNew (keepB ++ flattenPairs pairs) →
      ∀ h ∈ hunksFrom fuel pairs keepB o nn,
        (as.drop (h.oldStart - 1)).take (replayOld h.ops).length = replayOld h.ops ∧
        (bs.drop (h.newStart - 1)).take (replayNew h.ops).length = replayNew h.ops := by
  induction fuel with
  | zero =>
    intro pairs keepB o nn _ _ _ _ _ _ h hm
    simp [hunksFrom] at hm
  | succ f ih =>
    intro pairs keepB o nn ho hnn hkB hpairs hOld hNew h hm
    cases pairs with
    | nil => simp [hunksFrom] at hm
    | cons pr rest =>
      rcases pr with ⟨chg, keepA⟩
      rcases hex : extendSeg chg keepA rest with ⟨core, kl, rest2⟩
      have hflat : core ++ kl ++ flattenPairs rest2 = chg ++ keepA ++ flattenPairs rest := by
        have hh := extendSeg_flatten rest chg keepA
        rw [hex] at hh
        simpa using hh
      have hklpure : ∀ x ∈ kl, x.isKeep = true := by
        have hh := extendSeg_kl_pure rest chg keepA
          (hpairs (chg, keepA) (List.mem_cons_self _ _))
          (fun q hq => hpairs q (List.mem_cons_of_mem _ hq))
        rw [hex] at hh
        simpa using hh
      have hrest2pure : ∀ p ∈ rest2, ∀ x ∈ p.2, x.isKeep = true := by
        intro p hp
        have hh := extendSeg_rest_sub rest chg keepA p
        rw [hex] at hh
        exact hpairs p (List.mem_cons_of_mem _ (hh (by simpa using hp)))
      have hOldE : as.drop (o - 1)
          = replayOld keepB ++ (replayOld core ++ (replayOld kl ++ replayOld (flattenPairs rest2))) := by
        rw [hOld, replayOld_append, flattenPairs_cons, ← hflat]
        simp [replayOld_append, List.append_assoc]
      have hNewE : bs.drop (nn - 1)
          = replayNew keepB ++ (replayNew core ++ (replayNew kl ++ replayNew (flattenPairs rest2))) := by
        rw [hNew, replayNew_append, flattenPairs_cons, ← hflat]
        simp [replayNew_append, List.append_assoc]
      have hlenKBo : (replayOld keepB).length = keepB.length := by
        rw [(keepAll_replay keepB hkB).1]
        simp
      have hlenKBn : (replayNew keepB).length = keepB.length := by
        rw [(keepAll_replay keepB hkB).2]
        simp
      have hunf : hunksFrom (f + 1) ((chg, keepA) :: rest) keepB o nn
          = ({ oldStart := o + (keepB.length - min 5 keepB.length),
               newStart := nn + (keepB.length - min 5 keepB.length),
               ops := keepB.drop (keepB.length - min 5 keepB.length) ++ core ++ kl.take 5 } : HunkR)
            :: hunksFrom f rest2 kl (o + keepB.length + (replayOld core).length)
                (nn + keepB.length + (replayNew core).length) := by
        simp only [hunksFrom, hex]
      rw [hunf] at hm
      rcases List.mem_cons.mp hm with rfl | hm2
      · constructor
        · show (as.drop (o + (keepB.length - min 5 keepB.length) - 1)).take
              (replayOld (keepB.drop (keepB.length - min 5 keepB.length) ++ core ++ kl.take 5)).length
            = replayOld (keepB.drop (keepB.length - min 5 keepB.length) ++ core ++ kl.take 5)
          have hops1 : replayOld (keepB.drop (keepB.length - min 5 keepB.length) ++ core ++ kl.take 5)
              = (replayOld keepB).drop (keepB.length - min 5 keepB.length)
                ++ (replayOld core ++ (replayOld kl).take 5) := by
            rw [replayOld_append, replayOld_append,
              replayOld_drop_pure keepB _ hkB, replayOld_take_pure kl 5 hklpure,
              List.append_assoc]
          have hidx : o + (keepB.length - min 5 keepB.length) - 1
              = (o - 1) + (keepB.length - min 5 keepB.length) := by omega
          have hdd : as.drop ((o - 1) + (keepB.length - min 5 keepB.length))
              = (as.drop (o - 1)).drop (keepB.length - min 5 keepB.length) := by
            rw [List.drop_drop]
          rw [hops1, hidx, hdd, hOldE]
          simp only [List.length_append]
          exact slice_extract _ _ _ _ _ (by omega)
        · show (bs.drop (nn + (keepB.length - min 5 keepB.length) - 1)).take
              (replayNew (keepB.drop (keepB.length - min 5 keepB.length) ++ core ++ kl.take 5)).length
            = replayNew (keepB.drop (keepB.length - min 5 keepB.length) ++ core ++ kl.take 5)
          have hops1 : replayNew (keepB.drop (keepB.length - min 5 keepB.length) ++ core ++ kl.take 5)
              = (replayNew keepB).drop (keepB.length - min 5 keepB.length)
                ++ (replayNew core ++ (replayNew kl).take 5) := by
            rw [replayNew_append, replayNew_append,
              replayNew_drop_pure keepB _ hkB, replayNew_take_pure kl 5 hklpure,
              List.append_assoc]
          have hidx : nn + (keepB.length - min 5 keepB.length) - 1
              = (nn - 1) + (keepB.length - min 5 keepB.length) := by omega
          have hdd : bs.drop ((nn - 1) + (keepB.length - min 5 keepB.length))
              = (bs.drop (nn - 1)).drop (keepB.length - min 5 keepB.length) := by
            rw [List.drop_drop]
          rw [hops1, hidx, hdd, hNewE]
          simp only [List.length_append]
          exact slice_extract _ _ _ _ _ (by omega)
      · refine ih rest2 kl _ _ (by omega) (by omega) hklpure hrest2pure ?_ ?_ h hm2
        · have hidx : o + keepB.length + (replayOld core).length - 1
              = (o - 1) + ((replayOld keepB).length + (replayOld core).length) := by omega
          rw [hidx, ← List.drop_drop, hOldE]
          rw [← List.append_assoc, ← List.length_append, List.drop_left]
          rw [replayOld_append]
        · have hidx : nn + keepB.length + (replayNew core).length - 1
              = (nn - 1) + ((replayNew keepB).length + (replayNew core).length) := by omega
          rw [hidx, ← List.drop_drop, hNewE]
          rw [← List.append_assoc, ← List.length_append, List.drop_left]
          rw [replayNew_append]

end BacklogReview

namespace BacklogReview

/-- Positional correctness for buildHunks on any correct edit script. -/
lemma buildHunks_pos (as bs : List String) (ops : List Op)
    (h1 : replayOld ops = as) (h2 : replayNew ops = bs) :
    ∀ h ∈ buildHunks ops,
      (as.drop (h.oldStart - 1)).take (replayOld h.ops).length = replayOld h.ops ∧
      (bs.drop (h.newStart - 1)).take (replayNew h.ops).length = replayNew h.ops := by
  unfold buildHunks
  refine hunksFrom_pos as bs _ _ _ 1 1 (le_refl 1) (le_refl 1)
    (fun x hx => List.mem_takeWhile_imp hx)
    (pairRuns_keepPure _ _) ?_ ?_
  · rw [pairRuns_flatten]
    simp only [Nat.sub_self, List.drop_zero]
    rw [List.takeWhile_append_dropWhile, h1]
  · rw [pairRuns_flatten]
    simp only [Nat.sub_self, List.drop_zero]
    rw [List.takeWhile_append_dropWhile, h2]

/-! ## Decimal rendering round-trips through the header parse -/

lemma natCharsGo_acc (f : Nat) :
    ∀ (n : Nat) (acc : List Char), natCharsGo f n acc = natCharsGo f n [] ++ acc := by
  induction f with
  | zero => intro n acc; rfl
  | succ f ih =>
    intro n acc
    simp only [natCharsGo]
    by_cases h : n < 10
    · simp [h]
    · simp only [h, if_false]
      rw [ih (n / 10) (Char.ofNat (48 + n % 10) :: acc),
        ih (n / 10) [Char.ofNat (48 + n % 10)]]
      simp

lemma natCharsGo_fuel (f : Nat) :
    ∀ (g n : Nat) (acc : List Char), n < f → n < g →
      natCharsGo f n acc = natCharsGo g n acc := by
  induction f with
  | zero => intro g n acc h; omega
  | succ f ih =>
    intro g n acc hf hg
    cases g with
    | zero => omega
    | succ g =>
      simp only [natCharsGo]
      by_cases h : n < 10
      · simp [h]
      · simp only [h, if_false]
        have hdiv : n / 10 < n := Nat.div_lt_self (by omega) (by norm_num)
        exact ih g (n / 10) _ (by omega) (by omega)

lemma natChars_small (n : Nat) (h : n < 10) :
    natChars n = [Char.ofNat (48 + n % 10)] := by
  simp [natChars, natCharsGo, h]

lemma natChars_step (n : Nat) (h : ¬ n < 10) :
    natChars n = natChars (n / 10) ++ [Char.ofNat (48 + n % 10)] := by
  have hdiv : n / 10 < n := Nat.div_lt_self (by omega) (by norm_num)
  unfold natChars
  rw [show natCharsGo (n + 1) n [] = natCharsGo n (n / 10) [Char.ofNat (48 + n % 10)] from by
    simp [natCharsGo, h]]
  rw [natCharsGo_acc]
  congr 1
  exact natCharsGo_fuel n (n / 10 + 1) (n / 10) [] (by omega) (by omega)

lemma digit_facts : ∀ k, k < 10 →
    isDigitCh (Char.ofNat (48 + k)) = true ∧ (Char.ofNat (48 + k)).toNat - 48 = k ∧
      Char.ofNat (48 + k) ≠ '\n' ∧ Char.ofNat (48 + k) ≠ ',' ∧
      Char.ofNat (48 + k) ≠ ' ' ∧ Char.ofNat (48 + k) ≠ '\t' := by
  decide

lemma natChars_digits (n : Nat) : ∀ c ∈ natChars n, isDigitCh c = true := by
  induction n using Nat.strong_induction_on with
  | _ n ih =>
    by_cases h : n < 10
    · rw [natChars_small n h]
      intro c hc
      simp only [List.mem_singleton] at hc
      subst hc
      exact (digit_facts (n % 10) (by omega)).1
    · rw [natChars_step n h]
      intro c hc
      rcases List.mem_append.mp hc with hc | hc
      · exact ih (n / 10) (Nat.div_lt_self (by omega) (by norm_num)) c hc
      · simp only [List.mem_singleton] at hc
        subst hc
        exact (digit_facts (n % 10) (by omega)).1

lemma natChars_ne_nil (n : Nat) : natChars n ≠ [] := by
  by_cases h : n < 10
  · rw [natChars_small n h]
    simp
  · rw [natChars_step n h]
    simp

lemma parseNat_natChars (n : Nat) : parseNatChars (natChars n) = n := by
  induction n using Nat.strong_induction_on with
  | _ n ih =>
    by_cases h : n < 10
    · rw [natChars_small n h]
      simp only [parseNatChars, List.foldl_cons, List.foldl_nil]
      rw [(digit_facts (n % 10) (by omega)).2.1]
      omega
    · rw [natChars_step n h]
      simp only [parseNatChars, List.foldl_append, List.foldl_cons, List.foldl_nil]
      have hih := ih (n / 10) (Nat.div_lt_self (by omega) (by norm_num))
      simp only [parseNatChars] at hih
      rw [hih, (digit_facts (n % 10) (by omega)).2.1]
      omega

lemma takeWhile_append_not (p : Char → Bool) (rest : List Char)
    (hr : match rest with | [] => True | r :: _ => p r = false) :
    ∀ (ds : List Char), (∀ c ∈ ds, p c = true) →
      (ds ++ rest).takeWhile p = ds ∧ (ds ++ rest).dropWhile p = rest := by
  intro ds
  induction ds with
  | nil =>
    intro _
    cases rest with
    | nil => simp
    | cons r t =>
      simp only [List.nil_append]
      simp only at hr
      simp [List.takeWhile_cons, List.dropWhile_cons, hr]
  | cons d t ih =>
    intro hd
    have hdt := hd d (List.mem_cons_self d t)
    have iht := ih (fun c hc => hd c (List.mem_cons_of_mem d hc))
    simp only [List.cons_append, List.takeWhile_cons, List.dropWhile_cons, hdt]
    simp [iht.1, iht.2]

lemma isPrefixOf_self_append (l r : List Char) : l.isPrefixOf (l ++ r) = true := by
  induction l with
  | nil => simp [List.isPrefixOf]
  | cons a t ih => simp [List.isPrefixOf, ih]

end BacklogReview

namespace BacklogReview

lemma natChars_eq_nil_false (n : Nat) : (natChars n = []) = False :=
  eq_false (natChars_ne_nil n)

/-- A rendered hunk header parses back to its four numbers. -/
lemma parseHunkHeader_render (a b c d : Nat) :
    parseHunkHeader (hunkHeaderChars a b c d) = some (a, b, c, d) := by
  have hcomma : isDigitCh ',' = false := by decide
  have hspace : isDigitCh ' ' = false := by decide
  have hshape : hunkHeaderChars a b c d
      = "@@ -".data ++ (natChars a ++ (',' :: (natChars b ++ (' ' :: '+' :: (natChars c
        ++ (',' :: (natChars d ++ [' ', '@', '@']))))))) := by
    simp [hunkHeaderChars, List.append_assoc]
  have hdrop4 : ∀ Y : List Char, ("@@ -".data ++ Y).drop 4 = Y := by
    intro Y
    rw [show (4 : Nat) = ("@@ -".data).length from rfl]
    exact List.drop_left _ _
  have h1 := takeWhile_append_not isDigitCh
    (',' :: (natChars b ++ (' ' :: '+' :: (natChars c ++ (',' :: (natChars d ++ [' ', '@', '@']))))))
    (by simpa using hcomma) (natChars a) (natChars_digits a)
  have h2 := takeWhile_append_not isDigitCh
    (' ' :: '+' :: (natChars c ++ (',' :: (natChars d ++ [' ', '@', '@']))))
    (by simpa using hspace) (natChars b) (natChars_digits b)
  have h3 := takeWhile_append_not isDigitCh
    (',' :: (natChars d ++ [' ', '@', '@']))
    (by simpa using hcomma) (natChars c) (natChars_digits c)
  have h4 := takeWhile_append_not isDigitCh
    ([' ', '@', '@'])
    (by simpa using hspace) (natChars d) (natChars_digits d)
  have hpre2 : ∀ Y : List Char, ([' ', '+'].isPrefixOf (' ' :: '+' :: Y)) = true :=
    fun Y => isPrefixOf_self_append [' ', '+'] Y
  have hdrop2 : ∀ Y : List Char, List.drop 2 (' ' :: '+' :: Y) = Y := fun Y => rfl
  have hpreAt : ((" @@".data).isPrefixOf [' ', '@', '@']) = true := by decide
  rw [hshape]
  simp only [parseHunkHeader, isPrefixOf_self_append, if_true, hdrop4,
    h1.1, h1.2, h2.1, h2.2, h3.1, h3.2, h4.1, h4.2, hpre2, hdrop2, hpreAt,
    natChars_eq_nil_false, if_false, parseNat_natChars]

end BacklogReview

namespace BacklogReview

/-! ## The parser replays a rendered hunk exactly -/

lemma ops_counts_pos (ops : List Op) (h : ops ≠ []) :
    1 ≤ (replayOld ops).length + (replayNew ops).length := by
  cases ops with
  | nil => exact absurd rfl h
  | cons o t => cases o <;> simp [replayOld, replayNew] <;> omega

lemma stepLine_top (files : List PFile) (cf : Option PFile) (l : List Char) :
    stepLine ⟨files, cf, none, none⟩ l = stepTop ⟨files, cf, none, none⟩ l := rfl

lemma stepLine_body (files : List PFile) (cf : Option PFile) (h : Hunk) (ro rn : Nat)
    (l : List Char) :
    stepLine ⟨files, cf, some (h, ro, rn), none⟩ l
      = (if (bodyConsume h ro rn l).2.1 = 0 ∧ (bodyConsume h ro rn l).2.2 = 0
         then ⟨files, some (closeHunk cf (bodyConsume h ro rn l).1), none, none⟩
         else ⟨files, cf, some (bodyConsume h ro rn l), none⟩) := rfl

lemma bodyConsume_step (h : Hunk) (op : Op) (rest : List Op) :
    bodyConsume h (replayOld (op :: rest)).length (replayNew (op :: rest)).length
        ((opLine op).data)
      = ({ h with lines := h.lines ++ [opLine op] },
          (replayOld rest).length, (replayNew rest).length) := by
  cases op <;> rfl

/-- Folding the rendered body lines of a nonempty edit script through
the parser closes the hunk with exactly those lines recorded. -/
lemma bodyRun (ops : List Op) :
    ∀ (files : List PFile) (pf : PFile) (hAcc : List String) (a c : Nat),
      ops ≠ [] →
      ((ops.map opLine).map String.data).foldl stepLine
          ⟨files, some pf,
            some ((⟨a, c, hAcc⟩ : Hunk), (replayOld ops).length, (replayNew ops).length), none⟩
        = ⟨files, some { pf with hunks := pf.hunks ++ [⟨a, c, hAcc ++ ops.map opLine⟩] },
            none, none⟩ := by
  induction ops with
  | nil => intro files pf hAcc a c h; exact absurd rfl h
  | cons op rest ih =>
    intro files pf hAcc a c _
    simp only [List.map_cons, List.foldl_cons]
    rw [stepLine_body, bodyConsume_step]
    dsimp only
    cases rest with
    | nil =>
      simp only [replayOld, replayNew, List.length_nil, and_self, if_true]
      simp [closeHunk, List.map_cons, List.map_nil]
    | cons r rs =>
      have hpos := ops_counts_pos (r :: rs) (by simp)
      rw [if_neg (by omega)]
      rw [ih files pf (hAcc ++ [opLine op]) a c (by simp)]
      simp [List.append_assoc]

lemma stepTop_hunkHeader (files : List PFile) (cf : Option PFile) (a b c d : Nat) :
    stepTop ⟨files, cf, none, none⟩ (hunkHeaderChars a b c d)
      = (if b = 0 ∧ d = 0
         then ⟨files, some (closeHunk cf ⟨a, c, []⟩), none, none⟩
         else ⟨files, cf, some ((⟨a, c, []⟩ : Hunk), b, d), none⟩) := by
  have hm : (("--- ".data).isPrefixOf (hunkHeaderChars a b c d)) = false := rfl
  have hp : (("+++ ".data).isPrefixOf (hunkHeaderChars a b c d)) = false := rfl
  have hq : (("@@".data).isPrefixOf (hunkHeaderChars a b c d)) = true := by
    have : hunkHeaderChars a b c d = "@@".data ++ (" -".data ++ natChars a ++ [','] ++ natChars b
        ++ [' ', '+'] ++ natChars c ++ [','] ++ natChars d ++ " @@".data) := by
      simp [hunkHeaderChars, List.append_assoc]
    rw [this, isPrefixOf_self_append]
  unfold stepTop
  simp only [hm, hp, hq, Bool.false_eq_true, if_false, if_true, parseHunkHeader_render]

/-- Folding one rendered hunk through the parser from a top-level state
appends exactly that hunk to the current file. -/
lemma hunkRun (files : List PFile) (pf : PFile) (hr : HunkR) :
    ((renderHunk hr).map String.data).foldl stepLine ⟨files, some pf, none, none⟩
      = ⟨files,
          some (⟨pf.oldName, pf.newName,
            pf.hunks ++ [⟨hr.oldStart, hr.newStart, hr.ops.map opLine⟩]⟩ : PFile),
          none, none⟩ := by
  simp only [renderHunk, List.map_cons, List.foldl_cons]
  rw [stepLine_top, stepTop_hunkHeader]
  by_cases hops : hr.ops = []
  · rw [if_pos (by simp [hops, replayOld, replayNew])]
    simp [hops, closeHunk]
  · rw [if_neg (by have := ops_counts_pos hr.ops hops; omega)]
    rw [bodyRun hr.ops files pf [] hr.oldStart hr.newStart hops]
    simp

/-- Folding a list of rendered hunks appends them all in order. -/
lemma hunksRun (hrs : List HunkR) :
    ∀ (files : List PFile) (pf : PFile),
      ((hrs.flatMap renderHunk).map String.data).foldl stepLine ⟨files, some pf, none, none⟩
        = ⟨files,
            some (⟨pf.oldName, pf.newName,
              pf.hunks ++ hrs.map
                (fun hr => (⟨hr.oldStart, hr.newStart, hr.ops.map opLine⟩ : Hunk))⟩ : PFile),
            none, none⟩ := by
  induction hrs with
  | nil =>
    intro files pf
    simp
  | cons hr t ih =>
    intro files pf
    simp only [List.flatMap_cons, List.map_append, List.foldl_append]
    rw [hunkRun]
    rw [ih]
    simp [List.append_assoc]

end BacklogReview

namespace BacklogReview

/-! ## Rendered lines are newline-free and split back into themselves -/

lemma splitNL_ne_nil (cs : List Char) : splitNL cs ≠ [] := by
  cases cs with
  | nil => simp [splitNL]
  | cons c t =>
    unfold splitNL
    split
    · simp
    · split <;> simp

lemma splitNL_no_newline (cs : List Char) : ∀ l ∈ splitNL cs, '\n' ∉ l := by
  induction cs with
  | nil =>
    intro l hl
    simp only [splitNL, List.mem_singleton] at hl
    subst hl
    simp
  | cons c t ih =>
    intro l hl
    unfold splitNL at hl
    cases hsp : splitNL t with
    | nil => exact absurd hsp (splitNL_ne_nil t)
    | cons h hs =>
      rw [hsp] at hl
      by_cases hc : c = '\n'
      · simp only [hc, if_true] at hl
        rcases List.mem_cons.mp hl with rfl | hl2
        · simp
        · exact ih l (hsp ▸ hl2)
      · simp only [hc, if_false] at hl
        rcases List.mem_cons.mp hl with rfl | hl2
        · intro hmem
          rcases List.mem_cons.mp hmem with heq | hmem2
          · exact hc heq.symm
          · exact ih h (hsp ▸ List.mem_cons_self h hs) hmem2
        · exact ih l (hsp ▸ List.mem_cons_of_mem h hl2)

lemma splitLines_no_newline (s : String) : ∀ l ∈ splitLines s, '\n' ∉ l.data := by
  intro l hl
  simp only [splitLines, List.mem_map] at hl
  rcases hl with ⟨cs, hcs, rfl⟩
  have hcs2 : cs ∈ splitNL s.data := by
    by_cases hlast : (splitNL s.data).getLast? = some []
    · simp only [hlast, if_true] at hcs
      exact (List.dropLast_sublist (splitNL s.data)).subset hcs
    · simp only [hlast, if_false] at hcs
      exact hcs
  exact splitNL_no_newline s.data cs hcs2

lemma digit_ne_nl (ch : Char) (h : isDigitCh ch = true) : ch ≠ '\n' := by
  intro heq
  rw [heq] at h
  exact absurd h (by decide)

/-- Every entry of an edit script carries a line of one of the inputs. -/
lemma diffOps_content (f : Nat) (as bs : List String) :
    ∀ op ∈ diffOps f as bs, opContent op ∈ as ∨ opContent op ∈ bs := by
  induction f generalizing as bs with
  | zero =>
    intro op hop
    rcases List.mem_append.mp hop with h | h
    · rcases List.mem_map.mp h with ⟨a, ha, rfl⟩
      exact Or.inl ha
    · rcases List.mem_map.mp h with ⟨b, hb, rfl⟩
      exact Or.inr hb
  | succ f ih =>
    intro op hop
    cases as with
    | nil =>
      simp only [diffOps] at hop
      rcases List.mem_map.mp hop with ⟨b, hb, rfl⟩
      exact Or.inr hb
    | cons a as2 =>
      cases bs with
      | nil =>
        simp only [diffOps] at hop
        rcases List.mem_map.mp hop with ⟨x, hx, rfl⟩
        exact Or.inl hx
      | cons b bs2 =>
        by_cases hab : a = b
        · subst hab
          simp only [diffOps, if_true] at hop
          rcases List.mem_cons.mp hop with rfl | hop2
          · exact Or.inl (List.mem_cons_self a as2)
          · rcases ih as2 bs2 op hop2 with h | h
            · exact Or.inl (List.mem_cons_of_mem a h)
            · exact Or.inr (List.mem_cons_of_mem a h)
        · simp only [diffOps, hab, if_false] at hop
          split at hop
          · rcases List.mem_cons.mp hop with rfl | hop2
            · exact Or.inl (List.mem_cons_self a as2)
            · rcases ih as2 (b :: bs2) op hop2 with h | h
              · exact Or.inl (List.mem_cons_of_mem a h)
              · exact Or.inr h
          · rcases List.mem_cons.mp hop with rfl | hop2
            · exact Or.inr (List.mem_cons_self b bs2)
            · rcases ih (a :: as2) bs2 op hop2 with h | h
              · exact Or.inl h
              · exact Or.inr (List.mem_cons_of_mem b h)

/-- Every op inside an assembled hunk comes from the pending keeps or
the remaining pairs. -/
lemma hunksFrom_ops_sub (fuel : Nat) :
    ∀ (pairs : List (List Op × List Op)) (keepB : List Op) (o nn : Nat),
      ∀ h ∈ hunksFrom fuel pairs keepB o nn, ∀ x ∈ h.ops,
        x ∈ keepB ++ flattenPairs pairs := by
  induction fuel with
  | zero =>
    intro pairs keepB o nn h hm
    simp [hunksFrom] at hm
  | succ f ih =>
    intro pairs keepB o nn h hm x hx
    cases pairs with
    | nil => simp [hunksFrom] at hm
    | cons pr rest =>
      rcases pr with ⟨chg, keepA⟩
      rcases hex : extendSeg chg keepA rest with ⟨core, kl, rest2⟩
      have hflat : core ++ kl ++ flattenPairs rest2 = chg ++ keepA ++ flattenPairs rest := by
        have hh := extendSeg_flatten rest chg keepA
        rw [hex] at hh
        simpa using hh
      have htail : ∀ y : Op, y ∈ core ++ kl ++ flattenPairs rest2 →
          y ∈ keepB ++ flattenPairs ((chg, keepA) :: rest) := by
        intro y hy
        rw [hflat] at hy
        refine List.mem_append.mpr (Or.inr ?_)
        rw [flattenPairs_cons]
        simpa [List.append_assoc] using hy
      have hunf : hunksFrom (f + 1) ((chg, keepA) :: rest) keepB o nn
          = ({ oldStart := o + (keepB.length - min 5 keepB.length),
               newStart := nn + (keepB.length - min 5 keepB.length),
               ops := keepB.drop (keepB.length - min 5 keepB.length) ++ core ++ kl.take 5 } : HunkR)
            :: hunksFrom f rest2 kl (o + keepB.length + (replayOld core).length)
                (nn + keepB.length + (replayNew core).length) := by
        simp only [hunksFrom, hex]
      rw [hunf] at hm
      rcases List.mem_cons.mp hm with rfl | hm2
      · simp only at hx
        rcases List.mem_append.mp hx with hx1 | hx2
        · rcases List.mem_append.mp hx1 with hx3 | hx4
          · exact List.mem_append.mpr (Or.inl (List.mem_of_mem_drop hx3))
          · exact htail x (List.mem_append.mpr (Or.inl (List.mem_append.mpr (Or.inl hx4))))
        · exact htail x (List.mem_append.mpr (Or.inl
            (List.mem_append.mpr (Or.inr (List.mem_of_mem_take hx2)))))
      · have := ih rest2 kl _ _ h hm2 x hx
        rcases List.mem_append.mp this with hx1 | hx2
        · exact htail x (List.mem_append.mpr (Or.inl (List.mem_append.mpr (Or.inr hx1))))
        · exact htail x (List.mem_append.mpr (Or.inr hx2))

lemma buildHunks_ops_sub (ops : List Op) :
    ∀ h ∈ buildHunks ops, ∀ x ∈ h.ops, x ∈ ops := by
  intro h hm x hx
  have := hunksFrom_ops_sub _ _ _ 1 1 h hm x hx
  rw [pairRuns_flatten] at this
  rwa [List.takeWhile_append_dropWhile] at this

lemma foldl_strAppend_data (ls : List String) :
    ∀ s : String, (ls.foldl (· ++ ·) s).data = s.data ++ ls.flatMap String.data := by
  induction ls with
  | nil => intro s; simp
  | cons a t ih =>
    intro s
    simp only [List.foldl_cons, List.flatMap_cons, ih, String.data_append]
    simp [List.append_assoc]

lemma generate_data (A B fn oldRef newRef : String) :
    (String.join ((renderLines A B fn oldRef newRef).map (fun l => l ++ "\n"))).data
      = ((renderLines A B fn oldRef newRef).map String.data).flatMap
          (fun l => l ++ ['\n']) := by
  unfold String.join
  rw [foldl_strAppend_data]
  simp only [List.flatMap_map, List.flatMap_map]
  simp [Function.comp, String.data_append]

end BacklogReview

namespace BacklogReview

lemma hunkHeader_no_newline (a b c d : Nat) : '\n' ∉ hunkHeaderChars a b c d := by
  intro hmem
  simp only [hunkHeaderChars, List.mem_append, List.mem_cons, List.mem_singleton] at hmem
  rcases hmem with ((((((((h | h) | h) | h) | h) | h) | h) | h) | h)
  · exact absurd h (by decide)
  · exact digit_ne_nl _ (natChars_digits a _ h) rfl
  · exact absurd h (by decide)
  · exact digit_ne_nl _ (natChars_digits b _ h) rfl
  · exact absurd h (by decide)
  · exact digit_ne_nl _ (natChars_digits c _ h) rfl
  · exact absurd h (by decide)
  · exact digit_ne_nl _ (natChars_digits d _ h) rfl
  · exact absurd h (by decide)

lemma opLine_no_newline (op : Op) (h : '\n' ∉ (opContent op).data) :
    '\n' ∉ (opLine op).data := by
  cases op with
  | keep s =>
    show '\n' ∉ (" " ++ s).data
    rw [String.data_append]
    intro hm
    rcases List.mem_append.mp hm with hm | hm
    · exact absurd hm (by decide)
    · exact h hm
  | del s =>
    show '\n' ∉ ("-" ++ s).data
    rw [String.data_append]
    intro hm
    rcases List.mem_append.mp hm with hm | hm
    · exact absurd hm (by decide)
    · exact h hm
  | ins s =>
    show '\n' ∉ ("+" ++ s).data
    rw [String.data_append]
    intro hm
    rcases List.mem_append.mp hm with hm | hm
    · exact absurd hm (by decide)
    · exact h hm

lemma renderLines_no_newline (A B fn : String) (hfn : '\n' ∉ fn.data) :
    ∀ l ∈ renderLines A B fn "base" "branch", '\n' ∉ l.data := by
  intro l hl
  simp only [renderLines, List.mem_cons] at hl
  rcases hl with rfl | rfl | hl
  · show '\n' ∉ oldHeaderChars fn "base"
    intro hm
    simp only [oldHeaderChars, List.mem_append, List.mem_cons] at hm
    rcases hm with (hm | hm) | hm | hm
    · exact absurd hm (by decide)
    · exact hfn hm
    · exact absurd hm (by decide)
    · exact absurd hm (by decide)
  · show '\n' ∉ newHeaderChars fn "branch"
    intro hm
    simp only [newHeaderChars, List.mem_append, List.mem_cons] at hm
    rcases hm with (hm | hm) | hm | hm
    · exact absurd hm (by decide)
    · exact hfn hm
    · exact absurd hm (by decide)
    · exact absurd hm (by decide)
  · rcases List.mem_flatMap.mp hl with ⟨hr, hhr, hline⟩
    rcases List.mem_cons.mp hline with rfl | hbody
    · exact hunkHeader_no_newline _ _ _ _
    · rcases List.mem_map.mp hbody with ⟨op, hop, rfl⟩
      refine opLine_no_newline op ?_
      have hmem := buildHunks_ops_sub _ hr hhr op hop
      rcases diffOps_content _ _ _ op hmem with h | h
      · exact splitLines_no_newline A _ h
      · exact splitLines_no_newline B _ h

lemma stepTop_oldHeader (files : List PFile) (fn r : String) :
    stepTop ⟨files, none, none, none⟩ (oldHeaderChars fn r)
      = ⟨files, some ⟨some (headerName ((oldHeaderChars fn r).drop 4)), none, []⟩,
          none, none⟩ := by
  have hpre : (("--- ".data).isPrefixOf (oldHeaderChars fn r)) = true := rfl
  unfold stepTop
  simp only [hpre, if_true]
  simp

lemma stepTop_newHeader (files : List PFile) (f : PFile) (fn r : String) :
    stepTop ⟨files, some f, none, none⟩ (newHeaderChars fn r)
      = ⟨files, some ⟨f.oldName, some (headerName ((newHeaderChars fn r).drop 4)), f.hunks⟩,
          none, none⟩ := by
  have hm : (("--- ".data).isPrefixOf (newHeaderChars fn r)) = false := rfl
  have hp : (("+++ ".data).isPrefixOf (newHeaderChars fn r)) = true := rfl
  unfold stepTop
  simp only [hm, hp, Bool.false_eq_true, if_false, if_true]

lemma stepTop_empty (st : PState) : stepTop st [] = st := by
  unfold stepTop
  rfl

lemma splitNL_line (l : List Char) (rest : List Char) (h : '\n' ∉ l) :
    splitNL (l ++ '\n' :: rest) = l :: splitNL rest := by
  induction l with
  | nil =>
    simp only [List.nil_append, splitNL]
    cases hsp : splitNL rest with
    | nil => exact absurd hsp (splitNL_ne_nil rest)
    | cons a t => simp
  | cons c t ih =>
    have hc : c ≠ '\n' := fun heq => h (heq ▸ List.mem_cons_self c t)
    have hih := ih (fun hm => h (List.mem_cons_of_mem c hm))
    simp only [List.cons_append, splitNL]
    rw [show splitNL (t.append ('\n' :: rest)) = t :: splitNL rest from hih]
    simp [hc]

lemma splitNL_join (lines : List (List Char)) (h : ∀ l ∈ lines, '\n' ∉ l) :
    splitNL (lines.flatMap (fun l => l ++ ['\n'])) = lines ++ [[]] := by
  induction lines with
  | nil => rfl
  | cons l t ih =>
    simp only [List.flatMap_cons, List.append_assoc, List.singleton_append,
      List.nil_append, List.cons_append]
    rw [splitNL_line l _ (h l (List.mem_cons_self l t))]
    rw [ih (fun x hx => h x (List.mem_cons_of_mem l hx))]

/-- Parsing the rendered diff of two texts produces exactly one file
section holding exactly the rendered hunks. -/
lemma parsePatch_render (A B fn : String) (hfn : '\n' ∉ fn.data) :
    parsePatchModel (generateUnifiedDiff A B fn)
      = .ok [⟨some (headerName ((oldHeaderChars fn "base").drop 4)),
              some (headerName ((newHeaderChars fn "branch").drop 4)),
              (buildHunks (diffOps ((splitLines A).length + (splitLines B).length)
                  (splitLines A) (splitLines B))).map
                (fun hr => (⟨hr.oldStart, hr.newStart, hr.ops.map opLine⟩ : Hunk))⟩] := by
  have hgen : (generateUnifiedDiff A B fn).data
      = ((renderLines A B fn "base" "branch").map String.data).flatMap
          (fun l => l ++ ['\n']) :=
    generate_data A B fn "base" "branch"
  have hnl : ∀ l ∈ (renderLines A B fn "base" "branch").map String.data, '\n' ∉ l := by
    intro l hl
    rcases List.mem_map.mp hl with ⟨s, hs, rfl⟩
    exact renderLines_no_newline A B fn hfn s hs
  have hsplit : splitNL (generateUnifiedDiff A B fn).data
      = (renderLines A B fn "base" "branch").map String.data ++ [[]] := by
    rw [hgen]
    exact splitNL_join _ hnl
  unfold parsePatchModel
  rw [hsplit, List.foldl_append]
  simp only [renderLines, List.map_cons, List.foldl_cons]
  rw [stepLine_top, stepTop_oldHeader]
  rw [stepLine_top, stepTop_newHeader]
  rw [hunksRun]
  rw [List.foldl_nil, stepLine_top, stepTop_empty]
  simp [flushState]

end BacklogReview

namespace BacklogReview

lemma mk_data (s : String) : (⟨s.data⟩ : String) = s := rfl

lemma opLine_data (op : Op) :
    (opLine op).data
      = (match op with
         | Op.keep _ => ' '
         | Op.del _ => '-'
         | Op.ins _ => '+') :: (opContent op).data := by
  cases op with
  | keep s =>
    show (" " ++ s).data = ' ' :: s.data
    rw [String.data_append]
    rfl
  | del s =>
    show ("-" ++ s).data = '-' :: s.data
    rw [String.data_append]
    rfl
  | ins s =>
    show ("+" ++ s).data = '+' :: s.data
    rw [String.data_append]
    rfl

lemma hunkOldLines_map (a c : Nat) (ops : List Op) :
    hunkOldLines ⟨a, c, ops.map opLine⟩ = replayOld ops := by
  induction ops with
  | nil => rfl
  | cons op rest ih =>
    simp only [List.map_cons, hunkOldLines, List.filterMap_cons] at ih ⊢
    rw [opLine_data]
    cases op with
    | keep s => simpa [opContent, replayOld, mk_data] using ih
    | del s => simpa [opContent, replayOld, mk_data] using ih
    | ins s => simpa [opContent, replayOld, mk_data] using ih

lemma hunkNewLines_map (a c : Nat) (ops : List Op) :
    hunkNewLines ⟨a, c, ops.map opLine⟩ = replayNew ops := by
  induction ops with
  | nil => rfl
  | cons op rest ih =>
    simp only [List.map_cons, hunkNewLines, List.filterMap_cons] at ih ⊢
    rw [opLine_data]
    cases op with
    | keep s => simpa [opContent, replayNew, mk_data] using ih
    | del s => simpa [opContent, replayNew, mk_data] using ih
    | ins s => simpa [opContent, replayNew, mk_data] using ih

lemma oldName_ne_devnull (fn r : String) :
    headerName ((oldHeaderChars fn r).drop 4) ≠ "/dev/null" := by
  intro h
  have hd := congrArg String.data h
  have h4 : (oldHeaderChars fn r).drop 4 = 'a' :: '/' :: (fn.data ++ '\t' :: r.data) := rfl
  have hdev : ("/dev/null" : String).data = ['/', 'd', 'e', 'v', '/', 'n', 'u', 'l', 'l'] := rfl
  simp [headerName, h4, hdev] at hd

lemma newName_ne_devnull (fn r : String) :
    headerName ((newHeaderChars fn r).drop 4) ≠ "/dev/null" := by
  intro h
  have hd := congrArg String.data h
  have h4 : (newHeaderChars fn r).drop 4 = 'b' :: '/' :: (fn.data ++ '\t' :: r.data) := rfl
  have hdev : ("/dev/null" : String).data = ['/', 'd', 'e', 'v', '/', 'n', 'u', 'l', 'l'] := rfl
  simp [headerName, h4, hdev] at hd

end BacklogReview

namespace BacklogReview

/-- C1 counterexample: rendering an empty old text against "x\n" and
parsing back yields isNew = false even though the old text is empty
(the renderer always labels the sides a/path and b/path, never
/dev/null), so the claimed iff between isNew and emptiness of A fails. -/
theorem c1_counterexample :
    (parseDiff (generateUnifiedDiff ("") ("x\n") ("f"))).map
        (fun fds => fds.map (fun fd => fd.isNew)) = Except.ok [false]
      ∧ ("" : String).length = 0 :=
  ⟨rfl, rfl⟩

/-- C1 amended: for every pair of texts and every newline-free path,
parsing the rendered diff yields exactly one FileDiff; its isNew and
isDeleted flags are always false (the rendered headers carry a/path and
b/path, never /dev/null); and each hunk's removed/context lines equal
the old text's lines at the hunk's oldStart while its added/context
lines equal the new text's lines at the hunk's newStart.  Full
concatenated reconstruction holds only when the hunks cover the file;
context windows of five lines omit interior unchanged runs longer than
ten lines. -/
theorem c1_roundtrip_amended (A B fn : String) (hfn : '\n' ∉ fn.data) :
    ∃ fd : FileDiff,
      parseDiff (generateUnifiedDiff A B fn) = .ok [fd] ∧
      fd.isNew = false ∧ fd.isDeleted = false ∧
      ∀ h ∈ fd.hunks,
        ((splitLines A).drop (h.oldStart - 1)).take (hunkOldLines h).length
            = hunkOldLines h ∧
        ((splitLines B).drop (h.newStart - 1)).take (hunkNewLines h).length
            = hunkNewLines h := by
  have hp := parsePatch_render A B fn hfn
  refine ⟨{ oldPath := headerName ((oldHeaderChars fn "base").drop 4),
            newPath := headerName ((newHeaderChars fn "branch").drop 4),
            hunks := (buildHunks (diffOps ((splitLines A).length + (splitLines B).length)
                (splitLines A) (splitLines B))).map
              (fun hr => (⟨hr.oldStart, hr.newStart, hr.ops.map opLine⟩ : Hunk)),
            isNew := false, isDeleted := false,
            unifiedDiff := generateUnifiedDiff A B fn }, ?_, rfl, rfl, ?_⟩
  · unfold parseDiff
    rw [hp]
    have h1 : (some (headerName ((oldHeaderChars fn "base").drop 4))
        = some ("/dev/null" : String)) = False := by
      simp [oldName_ne_devnull fn ("base")]
    have h2 : (some (headerName ((newHeaderChars fn "branch").drop 4))
        = some ("/dev/null" : String)) = False := by
      simp [newName_ne_devnull fn ("branch")]
    simp [h1, h2]
  · intro h hm
    rcases List.mem_map.mp hm with ⟨hr, hhr, rfl⟩
    have hrep := diffOps_replay ((splitLines A).length + (splitLines B).length)
      (splitLines A) (splitLines B)
    have hpos := buildHunks_pos (splitLines A) (splitLines B) _ hrep.1 hrep.2 hr hhr
    constructor
    · show ((splitLines A).drop (hr.oldStart - 1)).take
          (hunkOldLines ⟨hr.oldStart, hr.newStart, hr.ops.map opLine⟩).length
        = hunkOldLines ⟨hr.oldStart, hr.newStart, hr.ops.map opLine⟩
      rw [hunkOldLines_map]
      exact hpos.1
    · show ((splitLines B).drop (hr.newStart - 1)).take
          (hunkNewLines ⟨hr.oldStart, hr.newStart, hr.ops.map opLine⟩).length
        = hunkNewLines ⟨hr.oldStart, hr.newStart, hr.ops.map opLine⟩
      rw [hunkNewLines_map]
      exact hpos.2

/-- Witness for c1_roundtrip_amended on the texts "a" and "b" with path
"f". -/
theorem c1_roundtrip_amended_witness :
    ('\n' ∉ ("f" : String).data) ∧
      (∃ fd : FileDiff,
        parseDiff (generateUnifiedDiff ("a\n") ("b\n") ("f")) = .ok [fd] ∧
        fd.isNew = false ∧ fd.isDeleted = false ∧
        ∀ h ∈ fd.hunks,
          ((splitLines ("a\n")).drop (h.oldStart - 1)).take (hunkOldLines h).length
              = hunkOldLines h ∧
          ((splitLines ("b\n")).drop (h.newStart - 1)).take (hunkNewLines h).length
              = hunkNewLines h) :=
  ⟨by decide, c1_roundtrip_amended ("a\n") ("b\n") ("f") (by decide)⟩

end BacklogReview
